import Mathlib

/-!
Course planner (`CS300-Data-Structures/ProjectTwo.cpp`).

A shallow embedding of the course loader (`LoadCoursesFromFile`), the binary
search tree (`BinarySearchTree`) and the load step of `main`, followed by the
properties proved about them.

Conventions of the embedding.

* A `std::string` is a Lean `String`; every operation on it is defined on its
  list of characters (`String.data`), so that it evaluates by reduction.
* `std::string::operator<` is the lexicographic comparison of the characters by
  their numeric value, a proper prefix being smaller (`strLt`).
* A `Node*` is a value of the inductive type `Node`: `Node.nullptr` or a node
  with its course and its two children.  Mutation of the tree is explicit state
  passing: a function that updates the tree returns the new tree.
* A text file is the list of its lines, as `getline` delivers them; a file that
  cannot be opened is `none`.
* What the loader writes to `cerr` is recorded as a value of `LoadError`, one
  constructor for each of its three messages.
-/

namespace CoursePlanner

/-! ## Strings -/

/-- The function `::toupper` of the C locale on one character: the letters
`a`..`z` are mapped to `A`..`Z`, every other character is unchanged. -/
def toupper (c : Char) : Char :=
  if 97 ≤ c.toNat ∧ c.toNat ≤ 122 then Char.ofNat (c.toNat - 32) else c

/-- Source `toUpper`: `transform(str.begin(), str.end(), str.begin(), ::toupper)`. -/
def toUpper (str : String) : String :=
  String.mk (str.data.map toupper)

/-- Membership in the character set `" \t\r\n"` used by `trim`. -/
def isTrimChar (c : Char) : Bool :=
  c = ' ' || c = '\t' || c = '\r' || c = '\n'

/-- Source `trim`: erase up to the first character outside `" \t\r\n"` (the
whole string when there is none), then erase what follows the last such
character. -/
def trim (str : String) : String :=
  String.mk ((((str.data.dropWhile isTrimChar).reverse).dropWhile isTrimChar).reverse)

/-- Lexicographic comparison of two character sequences, the way
`std::string::compare` does it: the first position where they differ decides,
by character value, and a proper prefix is smaller. -/
def ltChars : List Char → List Char → Bool
  | [], [] => false
  | [], _ :: _ => true
  | _ :: _, [] => false
  | a :: as, b :: bs =>
    if a.toNat < b.toNat then true
    else if b.toNat < a.toNat then false
    else ltChars as bs

/-- Source `operator<` on `std::string`. -/
def strLt (a b : String) : Bool :=
  ltChars a.data b.data

/-- The order `a <= b` on strings, that is `!(b < a)`. -/
def strLe (a b : String) : Bool :=
  !strLt b a

/-! ## Courses -/

/-- Source `struct Course`. -/
structure Course where
  courseNumber : String
  courseTitle : String
  prerequisites : List String
  deriving DecidableEq, Repr

/-! ## The loader -/

/-- The three messages `LoadCoursesFromFile` writes to `cerr`:
`"Error: Unable to open file " << filename`,
`"Invalid: Line has invalid amount, cannot be less than 2 fields"`, and
`"Error: Prerequisite " << prerequisite << " for course " << currentCourse[0]
<< " does not exist"`. -/
inductive LoadError where
  | unableToOpen (filename : String)
  | invalidLine
  | missingPrerequisite (prerequisite : String) (course : String)
  deriving DecidableEq, Repr

/-- The loop `while (getline(ss, piece, ','))` on the characters left in the
stream, `cur` holding (in reverse) the characters already extracted for the
current piece.  A comma ends the piece; at the end of the stream the piece is
delivered when characters were extracted for it, and otherwise the extraction
fails and the loop ends. -/
def getPieces : List Char → List Char → List String
  | [], cur => if cur.isEmpty then [] else [String.mk cur.reverse]
  | c :: cs, cur =>
    if c = ',' then String.mk cur.reverse :: getPieces cs []
    else getPieces cs (c :: cur)

/-- The vector `dataPieces` built for one line: each piece is trimmed before it
is pushed. -/
def dataPiecesOf (line : String) : List String :=
  (getPieces line.data []).map trim

/-- Pass 1 of `LoadCoursesFromFile`: the loop `while (getline(file, line))`
with its state `validCourseNumbers` (a set, kept as the list of the inserted
values) and `allCourseData`.  The result is `none` when the loop returns
`false` at a line with fewer than 2 fields. -/
def readLines : List String → List String → List (List String) →
    Option (List String × List (List String))
  | [], validCourseNumbers, allCourseData => some (validCourseNumbers, allCourseData)
  | line :: rest, validCourseNumbers, allCourseData =>
    if line.data.isEmpty then readLines rest validCourseNumbers allCourseData
    else
      let dataPieces := dataPiecesOf line
      if dataPieces.length < 2 then none
      else readLines rest (validCourseNumbers ++ [toUpper (dataPieces.getD 0 "")])
        (allCourseData ++ [dataPieces])

/-- The inner loop of pass 2, `for (size_t i = 2; i < currentCourse.size(); ++i)`,
on the fields from index 2 on: the first prerequisite that is not in
`validCourseNumbers` is reported together with `currentCourse[0]`. -/
def checkPrerequisites (validCourseNumbers : List String) (course0 : String) :
    List String → Option LoadError
  | [] => none
  | field :: rest =>
    let prerequisite := toUpper field
    if prerequisite ∈ validCourseNumbers then
      checkPrerequisites validCourseNumbers course0 rest
    else some (LoadError.missingPrerequisite prerequisite course0)

/-- Pass 2 of `LoadCoursesFromFile`: the loop over `allCourseData`. -/
def checkAll (validCourseNumbers : List String) : List (List String) → Option LoadError
  | [] => none
  | currentCourse :: rest =>
    if currentCourse.length > 2 then
      match checkPrerequisites validCourseNumbers (currentCourse.getD 0 "")
          (currentCourse.drop 2) with
      | some e => some e
      | none => checkAll validCourseNumbers rest
    else checkAll validCourseNumbers rest

/-- The body of the construction loop: the `Course` made from one validated
line. -/
def makeCourse (dataPieces : List String) : Course :=
  let courseNumber := toUpper (dataPieces.getD 0 "")
  let courseTitle := dataPieces.getD 1 ""
  let prerequisites :=
    if dataPieces.length > 2 then (dataPieces.drop 2).map toUpper else []
  Course.mk courseNumber courseTitle prerequisites

/-- What a call of `LoadCoursesFromFile` leaves behind: the returned `bool`,
the caller's vector `courses` after the call, and the message written to
`cerr`, if any. -/
structure LoadOutcome where
  ret : Bool
  courses : List Course
  cerr : Option LoadError
  deriving DecidableEq, Repr

/-- Source `LoadCoursesFromFile(filename, courses)`.  `file` is the content of
the file named `filename`, `none` when it cannot be opened; `courses` is the
content of the output vector at the call. -/
def LoadCoursesFromFile (filename : String) (file : Option (List String))
    (courses : List Course) : LoadOutcome :=
  match file with
  | none => LoadOutcome.mk false courses (some (LoadError.unableToOpen filename))
  | some lines =>
    match readLines lines [] [] with
    | none => LoadOutcome.mk false courses (some LoadError.invalidLine)
    | some (validCourseNumbers, allCourseData) =>
      match checkAll validCourseNumbers allCourseData with
      | some e => LoadOutcome.mk false courses (some e)
      | none => LoadOutcome.mk true (allCourseData.map makeCourse) none

/-! ## The binary search tree -/

/-- Source `Node*`: the null pointer, or a node with its course and its `left`
and `right` children. -/
inductive Node where
  | nullptr
  | node (course : Course) (left : Node) (right : Node)
  deriving DecidableEq, Repr

/-- Source `BinarySearchTree::insertHelper(node, course)`, returning the
subtree rooted at `node` after the insertion.  The source calls it on a
non-null node only; on `nullptr` the model returns `nullptr`. -/
def insertHelper : Node → Course → Node
  | Node.nullptr, _ => Node.nullptr
  | Node.node c left right, course =>
    if strLt course.courseNumber c.courseNumber then
      match left with
      | Node.nullptr => Node.node c (Node.node course Node.nullptr Node.nullptr) right
      | Node.node lc ll lr => Node.node c (insertHelper (Node.node lc ll lr) course) right
    else
      match right with
      | Node.nullptr => Node.node c left (Node.node course Node.nullptr Node.nullptr)
      | Node.node rc rl rr => Node.node c left (insertHelper (Node.node rc rl rr) course)

/-- Source `BinarySearchTree::inOrderPrintHelper(node)`: the courses whose line
`courseNumber, courseTitle` is written to `cout`, in the order of writing. -/
def inOrderPrintHelper : Node → List Course
  | Node.nullptr => []
  | Node.node c left right => inOrderPrintHelper left ++ c :: inOrderPrintHelper right

/-- Source `BinarySearchTree::SearchHelper(node, courseNumber)`: the course
pointed to by the result, `none` for `nullptr`. -/
def SearchHelper : Node → String → Option Course
  | Node.nullptr, _ => none
  | Node.node c left right, courseNumber =>
    if courseNumber = c.courseNumber then some c
    else if strLt courseNumber c.courseNumber then SearchHelper left courseNumber
    else SearchHelper right courseNumber

/-- Source `class BinarySearchTree`: its only member is `root`. -/
structure BinarySearchTree where
  root : Node
  deriving DecidableEq, Repr

/-- The constructor `BinarySearchTree()`: `root = nullptr`. -/
def BinarySearchTree.empty : BinarySearchTree :=
  BinarySearchTree.mk Node.nullptr

/-- Source `BinarySearchTree::Insert(course)`. -/
def BinarySearchTree.Insert (bst : BinarySearchTree) (course : Course) : BinarySearchTree :=
  match bst.root with
  | Node.nullptr => BinarySearchTree.mk (Node.node course Node.nullptr Node.nullptr)
  | Node.node c l r => BinarySearchTree.mk (insertHelper (Node.node c l r) course)

/-- Source `BinarySearchTree::Search(courseNumber)`. -/
def BinarySearchTree.Search (bst : BinarySearchTree) (courseNumber : String) : Option Course :=
  let upperCourseNumber := toUpper courseNumber
  SearchHelper bst.root upperCourseNumber

/-- The courses listed by `BinarySearchTree::PrintCourseList`, in order. -/
def BinarySearchTree.traverse (bst : BinarySearchTree) : List Course :=
  inOrderPrintHelper bst.root

/-- Source `PopulateBST(courses, bst)`: the tree after the loop
`for (const auto& course : courses) bst.Insert(course)`. -/
def PopulateBST : List Course → BinarySearchTree → BinarySearchTree
  | [], bst => bst
  | course :: rest, bst => PopulateBST rest (bst.Insert course)

/-! ## The load step of `main` -/

/-- The state `main` keeps between two menu choices. -/
structure AppState where
  bst : BinarySearchTree
  dataLoaded : Bool
  deriving DecidableEq, Repr

/-- The state at the start of `main`. -/
def AppState.initial : AppState :=
  AppState.mk BinarySearchTree.empty false

/-- Source `main`, `case 1`: a fresh vector `courses` is passed to
`LoadCoursesFromFile`; the tree is populated only when the call returns
`true`. -/
def loadStep (st : AppState) (filename : String) (file : Option (List String)) : AppState :=
  let out := LoadCoursesFromFile filename file []
  if out.ret then AppState.mk (PopulateBST out.courses st.bst) true
  else st

/-- The child pointer after `course` is stored below it: `new Node(course)` when
the pointer is null, the result of `insertHelper` on the child otherwise. -/
def insertBelow (child : Node) (course : Course) : Node :=
  match child with
  | Node.nullptr => Node.node course Node.nullptr Node.nullptr
  | Node.node c l r => insertHelper (Node.node c l r) course

/-- The ordering the descent rule of `insertHelper` implies: at every node the
keys of the left subtree are strictly less than the key of the node and the
keys of the right subtree are greater than or equal to it. -/
def descentOrdered : Node → Bool
  | Node.nullptr => true
  | Node.node c left right =>
    descentOrdered left && descentOrdered right &&
      (inOrderPrintHelper left).all (fun x => strLt x.courseNumber c.courseNumber) &&
      (inOrderPrintHelper right).all (fun x => strLe c.courseNumber x.courseNumber)

/-! ## Notions used in the statements on the loader -/

/-- The lines the loop of pass 1 does not skip: those for which `line.empty()`
is false. -/
def nonEmptyLines (lines : List String) : List String :=
  lines.filter (fun line => !line.data.isEmpty)

/-- The identifiers of an input: the uppercased field 0 of every line that has
one. -/
def identifiersOf (lines : List String) : List String :=
  lines.filterMap (fun line => (dataPiecesOf line).head?.map toUpper)

/-- The prerequisite references of an input, in line order then field order:
every field at index 2 or more, uppercased, paired with field 0 of its line. -/
def prerequisiteRefs (lines : List String) : List (String × String) :=
  lines.flatMap (fun line =>
    ((dataPiecesOf line).drop 2).map (fun field => (toUpper field, (dataPiecesOf line).getD 0 "")))

/-- The record the specification assigns to a line with the trimmed fields
`f0, f1, f2 .. fn`: identifier `toUpper f0`, title `f1` as it stands,
prerequisites `toUpper f2 .. toUpper fn`; no record for fewer than 2 fields. -/
def recordOfFields : List String → Option Course
  | f0 :: f1 :: rest => some (Course.mk (toUpper f0) f1 (rest.map toUpper))
  | _ => none

/-- The outcome classes of a load. -/
inductive OutcomeClass where
  | success
  | sourceUnavailable
  | malformedRecord
  | unknownPrerequisite
  deriving DecidableEq, Repr

/-- The class of an outcome, read off the returned `bool` and the message on
`cerr`. -/
def LoadOutcome.outcomeClass (out : LoadOutcome) : Option OutcomeClass :=
  match out.ret, out.cerr with
  | true, none => some OutcomeClass.success
  | false, some (LoadError.unableToOpen _) => some OutcomeClass.sourceUnavailable
  | false, some LoadError.invalidLine => some OutcomeClass.malformedRecord
  | false, some (LoadError.missingPrerequisite _ _) => some OutcomeClass.unknownPrerequisite
  | _, _ => none

/-! ## Notions used in the statements on the tree -/

/-- The BST property as the comment of `Insert` states it, `left < parent <
right`: at every node the keys of the left subtree are strictly less than the
key of the node and the keys of the right subtree are strictly greater. -/
def strictlyOrdered : Node → Bool
  | Node.nullptr => true
  | Node.node c left right =>
    strictlyOrdered left && strictlyOrdered right &&
      (inOrderPrintHelper left).all (fun x => strLt x.courseNumber c.courseNumber) &&
      (inOrderPrintHelper right).all (fun x => strLt c.courseNumber x.courseNumber)

/-- The depth of a tree: the number of nodes on its longest path from the root
down to a leaf. -/
def depth : Node → Nat
  | Node.nullptr => 0
  | Node.node _ left right => 1 + max (depth left) (depth right)

/-- No node of the tree has a left child. -/
def noLeftChild : Node → Bool
  | Node.nullptr => true
  | Node.node _ Node.nullptr right => noLeftChild right
  | Node.node _ (Node.node _ _ _) _ => false

/-- The tree with the given courses on one path of right children. -/
def rightSpine : List Course → Node
  | [] => Node.nullptr
  | c :: cs => Node.node c Node.nullptr (rightSpine cs)

/-- The pointer reached from `node` along a path of child links, `false` for
`left` and `true` for `right`; `nullptr` when the path leaves the tree. -/
def subtreeAt : Node → List Bool → Node
  | t, [] => t
  | Node.nullptr, _ :: _ => Node.nullptr
  | Node.node _ left _, false :: path => subtreeAt left path
  | Node.node _ _ right, true :: path => subtreeAt right path

/-- The course of the node at a position of the tree, `none` when there is no
node at that position. -/
def courseAt (t : Node) (path : List Bool) : Option Course :=
  match subtreeAt t path with
  | Node.nullptr => none
  | Node.node c _ _ => some c

/-- The position at which `Insert` (through `insertHelper`) creates the new
node: the descent of `insertHelper`, recorded link by link, down to the null
child pointer that receives `new Node(course)`. -/
def insertPath : Node → Course → List Bool
  | Node.nullptr, _ => []
  | Node.node c left right, course =>
    if strLt course.courseNumber c.courseNumber then false :: insertPath left course
    else true :: insertPath right course

/-- The position of the node whose course `SearchHelper` returns the address
of: the descent of `SearchHelper`, recorded link by link; `none` for
`nullptr`. -/
def SearchHelperPath : Node → String → Option (List Bool)
  | Node.nullptr, _ => none
  | Node.node c left right, courseNumber =>
    if courseNumber = c.courseNumber then some []
    else if strLt courseNumber c.courseNumber then
      (SearchHelperPath left courseNumber).map (fun path => false :: path)
    else (SearchHelperPath right courseNumber).map (fun path => true :: path)

/-- The stable sort of a list of records by identifier: the insertion sort that
takes the records from the last to the first and places each one in front of
the first record, among those already placed, whose identifier is not smaller
than its own; so records with equal identifiers keep their order. -/
def stableSortByIdentifier (records : List Course) : List Course :=
  records.insertionSort (fun a b => strLe a.courseNumber b.courseNumber = true)

/-- The records of a list with a given identifier, in the order of the list. -/
def withIdentifier (k : String) (records : List Course) : List Course :=
  records.filter (fun c => decide (c.courseNumber = k))

/-! ## Lemmas on the string order -/

theorem ltChars_irrefl (a : List Char) : ltChars a a = false := by
  induction a with
  | nil => rfl
  | cons x xs ih => simp [ltChars, ih]

theorem ltChars_trans : ∀ (a b c : List Char),
    ltChars a b = true → ltChars b c = true → ltChars a c = true := by
  intro a
  induction a with
  | nil =>
    intro b c hab hbc
    cases b with
    | nil => simp [ltChars] at hab
    | cons y ys =>
      cases c with
      | nil => simp [ltChars] at hbc
      | cons z zs => simp [ltChars]
  | cons x xs ih =>
    intro b c hab hbc
    cases b with
    | nil => simp [ltChars] at hab
    | cons y ys =>
      cases c with
      | nil => simp [ltChars] at hbc
      | cons z zs =>
        simp only [ltChars] at hab hbc ⊢
        split_ifs at hab hbc ⊢ <;> first | rfl | omega | exact ih ys zs hab hbc

theorem strLt_irrefl (a : String) : strLt a a = false :=
  ltChars_irrefl a.data

theorem strLt_trans {a b c : String} (hab : strLt a b = true) (hbc : strLt b c = true) :
    strLt a c = true :=
  ltChars_trans a.data b.data c.data hab hbc

/-- From `a < b` and `!(c < b)` follows `!(c < a)`, that is `a <= c`. -/
theorem strLe_of_lt_of_le {a b c : String} (hab : strLt a b = true) (hbc : strLe b c = true) :
    strLe a c = true := by
  unfold strLe at hbc ⊢
  cases h : strLt c a with
  | false => rfl
  | true =>
    have := strLt_trans h hab
    simp [this] at hbc

theorem strLe_of_lt {a b : String} (hab : strLt a b = true) : strLe a b = true := by
  unfold strLe
  cases h : strLt b a with
  | false => rfl
  | true =>
    have := strLt_trans hab h
    simp [strLt_irrefl] at this

theorem Char.eq_of_toNat_eq {a b : Char} (h : a.toNat = b.toNat) : a = b := by
  rw [← Char.ofNat_toNat a, ← Char.ofNat_toNat b, h]

theorem toNat_ofNat_upper : ∀ n < 123, 97 ≤ n → (Char.ofNat (n - 32)).toNat = n - 32 := by
  decide

/-- No character in the image of `toupper` is a lowercase letter. -/
theorem toupper_not_lower (c : Char) :
    ¬ (97 ≤ (toupper c).toNat ∧ (toupper c).toNat ≤ 122) := by
  unfold toupper
  split_ifs with h
  · rw [toNat_ofNat_upper c.toNat (by omega) h.1]
    omega
  · exact h

theorem toupper_idem (c : Char) : toupper (toupper c) = toupper c := by
  have h := toupper_not_lower c
  generalize toupper c = d at h ⊢
  unfold toupper
  rw [if_neg h]

theorem toUpper_idem (s : String) : toUpper (toUpper s) = toUpper s := by
  unfold toUpper
  simp only [List.map_map]
  congr 1
  apply List.map_congr_left
  intro c _
  exact toupper_idem c

theorem ltChars_antisymm : ∀ (a b : List Char),
    ltChars a b = false → ltChars b a = false → a = b := by
  intro a
  induction a with
  | nil =>
    intro b hab _
    cases b with
    | nil => rfl
    | cons y ys => simp [ltChars] at hab
  | cons x xs ih =>
    intro b hab hba
    cases b with
    | nil => simp [ltChars] at hba
    | cons y ys =>
      simp only [ltChars] at hab hba
      split_ifs at hab hba with h1 h2
      have hxy : x = y := Char.eq_of_toNat_eq (by omega)
      rw [hxy, ih ys hab hba]

theorem ltChars_negtrans : ∀ (a b c : List Char),
    ltChars b a = false → ltChars c b = false → ltChars c a = false := by
  intro a
  induction a with
  | nil =>
    intro b c hba hcb
    cases c with
    | nil => rfl
    | cons z zs => simp [ltChars]
  | cons x xs ih =>
    intro b c hba hcb
    cases b with
    | nil => simp [ltChars] at hba
    | cons y ys =>
      cases c with
      | nil => simp [ltChars] at hcb
      | cons z zs =>
        simp only [ltChars] at hba hcb ⊢
        split_ifs at hba hcb ⊢ <;> first | rfl | omega | exact ih ys zs hba hcb

theorem strLe_trans {a b c : String} (hab : strLe a b = true) (hbc : strLe b c = true) :
    strLe a c = true := by
  unfold strLe strLt at *
  simp only [Bool.not_eq_true'] at *
  exact ltChars_negtrans a.data b.data c.data hab hbc

theorem strLe_total (a b : String) : strLe a b = true ∨ strLe b a = true := by
  cases h : strLt b a with
  | false => left; simp [strLe, h]
  | true =>
    right
    cases h' : strLt a b with
    | false => simp [strLe, h']
    | true =>
      have := strLt_trans h h'
      simp [strLt_irrefl] at this

theorem strLe_antisymm {a b : String} (hab : strLe a b = true) (hba : strLe b a = true) :
    a = b := by
  unfold strLe strLt at *
  simp only [Bool.not_eq_true'] at *
  exact String.ext (ltChars_antisymm a.data b.data hba hab)

theorem strLt_of_not_le {a b : String} (h : strLe a b = false) : strLt b a = true := by
  unfold strLe at h
  simpa using h

theorem strLe_refl (a : String) : strLe a a = true := by
  simp [strLe, strLt_irrefl]

/-! ## Lemmas on the tree -/

theorem insertHelper_node (c : Course) (l r : Node) (course : Course) :
    insertHelper (Node.node c l r) course =
      if strLt course.courseNumber c.courseNumber then Node.node c (insertBelow l course) r
      else Node.node c l (insertBelow r course) := by
  cases l <;> cases r <;> simp [insertHelper, insertBelow]

theorem insertBelow_node (c : Course) (l r : Node) (course : Course) :
    insertBelow (Node.node c l r) course =
      if strLt course.courseNumber c.courseNumber then Node.node c (insertBelow l course) r
      else Node.node c l (insertBelow r course) := by
  rw [← insertHelper_node]; rfl

theorem Insert_root (bst : BinarySearchTree) (course : Course) :
    (bst.Insert course).root = insertBelow bst.root course := by
  cases bst with
  | mk root => cases root <;> rfl

theorem inOrder_insertBelow_perm (t : Node) (course : Course) :
    List.Perm (inOrderPrintHelper (insertBelow t course)) (course :: inOrderPrintHelper t) := by
  induction t with
  | nullptr => simp [insertBelow, inOrderPrintHelper]
  | node c l r ihl ihr =>
    rw [insertBelow_node]
    split_ifs
    · simp only [inOrderPrintHelper]
      exact (List.Perm.append_right _ ihl)
    · simp only [inOrderPrintHelper]
      refine List.Perm.trans ?_ (@List.perm_middle _ course (inOrderPrintHelper l)
        (c :: inOrderPrintHelper r))
      refine List.Perm.append_left _ ?_
      exact (List.Perm.cons c ihr).trans (List.Perm.swap course c _)

theorem mem_inOrder_insertBelow (t : Node) (course x : Course) :
    x ∈ inOrderPrintHelper (insertBelow t course) ↔ x = course ∨ x ∈ inOrderPrintHelper t := by
  rw [(inOrder_insertBelow_perm t course).mem_iff, List.mem_cons]

theorem descentOrdered_insertBelow (t : Node) (course : Course)
    (h : descentOrdered t = true) : descentOrdered (insertBelow t course) = true := by
  induction t with
  | nullptr => simp [insertBelow, descentOrdered, inOrderPrintHelper]
  | node c l r ihl ihr =>
    simp only [descentOrdered, Bool.and_eq_true, List.all_eq_true] at h
    obtain ⟨⟨⟨hl, hr⟩, hlt⟩, hge⟩ := h
    rw [insertBelow_node]
    by_cases hc : strLt course.courseNumber c.courseNumber = true
    · rw [if_pos hc]
      simp only [descentOrdered, Bool.and_eq_true, List.all_eq_true]
      refine ⟨⟨⟨ihl hl, hr⟩, ?_⟩, hge⟩
      intro x hx
      rcases (mem_inOrder_insertBelow l course x).1 hx with rfl | hx
      · exact hc
      · exact hlt x hx
    · rw [if_neg hc]
      simp only [descentOrdered, Bool.and_eq_true, List.all_eq_true]
      refine ⟨⟨⟨hl, ihr hr⟩, hlt⟩, ?_⟩
      intro x hx
      rcases (mem_inOrder_insertBelow r course x).1 hx with rfl | hx
      · simpa [strLe] using hc
      · exact hge x hx

theorem inOrder_pairwise_of_descentOrdered (t : Node) (h : descentOrdered t = true) :
    List.Pairwise (fun a b : Course => strLe a.courseNumber b.courseNumber = true)
      (inOrderPrintHelper t) := by
  induction t with
  | nullptr => simp [inOrderPrintHelper]
  | node c l r ihl ihr =>
    simp only [descentOrdered, Bool.and_eq_true, List.all_eq_true] at h
    obtain ⟨⟨⟨hl, hr⟩, hlt⟩, hge⟩ := h
    simp only [inOrderPrintHelper]
    rw [List.pairwise_append]
    refine ⟨ihl hl, List.pairwise_cons.2 ⟨hge, ihr hr⟩, ?_⟩
    intro x hx y hy
    rcases List.mem_cons.1 hy with rfl | hy
    · exact strLe_of_lt (hlt x hx)
    · exact strLe_of_lt_of_le (hlt x hx) (hge y hy)

theorem PopulateBST_descentOrdered (courses : List Course) (bst : BinarySearchTree)
    (h : descentOrdered bst.root = true) :
    descentOrdered (PopulateBST courses bst).root = true := by
  induction courses generalizing bst with
  | nil => exact h
  | cons c cs ih =>
    simp only [PopulateBST]
    apply ih
    rw [Insert_root]
    exact descentOrdered_insertBelow _ _ h

theorem PopulateBST_traverse_perm (courses : List Course) (bst : BinarySearchTree) :
    List.Perm (PopulateBST courses bst).traverse (bst.traverse ++ courses) := by
  induction courses generalizing bst with
  | nil => simp [PopulateBST]
  | cons c cs ih =>
    simp only [PopulateBST]
    refine (ih (bst.Insert c)).trans ?_
    have h1 : List.Perm (bst.Insert c).traverse (c :: bst.traverse) := by
      unfold BinarySearchTree.traverse
      rw [Insert_root]
      exact inOrder_insertBelow_perm _ _
    refine (List.Perm.append_right cs h1).trans ?_
    simpa using (@List.perm_middle _ c bst.traverse cs).symm

theorem SearchHelper_insertBelow (t : Node) (course : Course) (k : String) :
    SearchHelper (insertBelow t course) k =
      match SearchHelper t k with
      | some x => some x
      | none => if k = course.courseNumber then some course else none := by
  induction t with
  | nullptr => simp [insertBelow, SearchHelper]
  | node c l r ihl ihr =>
    rw [insertBelow_node]
    by_cases hc : strLt course.courseNumber c.courseNumber = true
    · rw [if_pos hc]
      simp only [SearchHelper]
      by_cases hk : k = c.courseNumber
      · simp [hk]
      · simp only [if_neg hk]
        by_cases hlt : strLt k c.courseNumber = true
        · simp only [if_pos hlt]; exact ihl
        · simp only [if_neg hlt]
          have hne : k ≠ course.courseNumber := by
            rintro rfl; exact hlt hc
          cases SearchHelper r k <;> simp [hne]
    · rw [if_neg hc]
      simp only [SearchHelper]
      by_cases hk : k = c.courseNumber
      · simp [hk]
      · simp only [if_neg hk]
        by_cases hlt : strLt k c.courseNumber = true
        · simp only [if_pos hlt]
          have hne : k ≠ course.courseNumber := by
            rintro rfl; exact hc hlt
          cases SearchHelper l k <;> simp [hne]
        · simp only [if_neg hlt]; exact ihr

theorem SearchHelper_PopulateBST (courses : List Course) (bst : BinarySearchTree) (k : String) :
    SearchHelper (PopulateBST courses bst).root k =
      match SearchHelper bst.root k with
      | some x => some x
      | none => courses.find? (fun c => decide (k = c.courseNumber)) := by
  induction courses generalizing bst with
  | nil => simp only [PopulateBST, List.find?_nil]; cases SearchHelper bst.root k <;> rfl
  | cons c cs ih =>
    simp only [PopulateBST]
    rw [ih, Insert_root, SearchHelper_insertBelow]
    cases SearchHelper bst.root k with
    | some x => rfl
    | none =>
      by_cases hk : k = c.courseNumber
      · simp [hk]
      · simp [hk]

theorem Search_PopulateBST_empty (courses : List Course) (q : String) :
    (PopulateBST courses BinarySearchTree.empty).Search q =
      courses.find? (fun c => decide (toUpper q = c.courseNumber)) := by
  unfold BinarySearchTree.Search
  rw [SearchHelper_PopulateBST]
  rfl

/-! ## Lemmas on the loader -/

theorem isEmpty_data_iff (line : String) : line.data.isEmpty = true ↔ line = "" := by
  rw [List.isEmpty_iff, String.ext_iff]

theorem dataPiecesOf_of_isEmpty {line : String} (h : line.data.isEmpty = true) :
    dataPiecesOf line = [] := by
  rw [List.isEmpty_iff] at h
  simp [dataPiecesOf, h, getPieces]

theorem readLines_eq_none_iff (lines : List String) (v : List String) (a : List (List String)) :
    readLines lines v a = none ↔
      ∃ line ∈ lines, line.data.isEmpty = false ∧ (dataPiecesOf line).length < 2 := by
  induction lines generalizing v a with
  | nil => simp [readLines]
  | cons l ls ih =>
    simp only [readLines]
    by_cases he : l.data.isEmpty = true
    · simp only [he, if_true, ih, List.mem_cons, exists_eq_or_imp]
      simp
    · simp only [he, Bool.false_eq_true, if_false, List.mem_cons, exists_eq_or_imp]
      by_cases hlen : (dataPiecesOf l).length < 2
      · simp [hlen, he]
      · simp only [hlen, if_false, ih]
        simp [hlen]

theorem readLines_eq_some (lines : List String) (v v' : List String) (a a' : List (List String))
    (h : readLines lines v a = some (v', a')) :
    v' = v ++ (nonEmptyLines lines).map (fun line => toUpper ((dataPiecesOf line).getD 0 "")) ∧
      a' = a ++ (nonEmptyLines lines).map dataPiecesOf := by
  induction lines generalizing v a with
  | nil =>
    simp only [readLines, Option.some.injEq, Prod.mk.injEq] at h
    simp [nonEmptyLines, h.1, h.2]
  | cons l ls ih =>
    simp only [readLines] at h
    by_cases he : l.data.isEmpty = true
    · simp only [he, if_true] at h
      have := ih v a h
      simpa [nonEmptyLines, he] using this
    · simp only [he, Bool.false_eq_true, if_false] at h
      by_cases hlen : (dataPiecesOf l).length < 2
      · simp [hlen] at h
      · simp only [hlen, if_false] at h
        have := ih _ _ h
        simpa [nonEmptyLines, he, List.append_assoc] using this

theorem checkPrerequisites_eq (v : List String) (c0 : String) (fields : List String) :
    checkPrerequisites v c0 fields =
      ((fields.map (fun field => (toUpper field, c0))).find?
        (fun pc => decide (pc.1 ∉ v))).map
        (fun pc => LoadError.missingPrerequisite pc.1 pc.2) := by
  induction fields with
  | nil => rfl
  | cons f fs ih =>
    simp only [checkPrerequisites, List.map_cons]
    by_cases hm : toUpper f ∈ v
    · rw [if_pos hm, ih, List.find?_cons_of_neg _ (by simpa using hm)]
    · rw [if_neg hm, List.find?_cons_of_pos _ (by simpa using hm)]
      rfl

theorem checkAll_eq (v : List String) (all : List (List String)) :
    checkAll v all =
      ((all.flatMap (fun fields =>
          (fields.drop 2).map (fun field => (toUpper field, fields.getD 0 "")))).find?
        (fun pc => decide (pc.1 ∉ v))).map
        (fun pc => LoadError.missingPrerequisite pc.1 pc.2) := by
  induction all with
  | nil => rfl
  | cons fields rest ih =>
    rw [List.flatMap_cons, List.find?_append]
    simp only [checkAll]
    by_cases hlen : fields.length > 2
    · rw [if_pos hlen, checkPrerequisites_eq, ih]
      cases ((fields.drop 2).map (fun field => (toUpper field, fields.getD 0 ""))).find?
          (fun pc => decide (pc.1 ∉ v)) with
      | none => rfl
      | some pc => rfl
    · rw [if_neg hlen, ih]
      have hdrop : fields.drop 2 = [] := List.drop_eq_nil_of_le (by omega)
      rw [hdrop]
      rfl

theorem bind_nonEmptyLines (lines : List String) :
    ((nonEmptyLines lines).map dataPiecesOf).flatMap (fun fields =>
        (fields.drop 2).map (fun field => (toUpper field, fields.getD 0 ""))) =
      prerequisiteRefs lines := by
  induction lines with
  | nil => rfl
  | cons l ls ih =>
    unfold prerequisiteRefs nonEmptyLines at *
    by_cases he : l.data.isEmpty = true
    · simp only [List.filter_cons, he, Bool.not_true, Bool.false_eq_true, if_false,
        List.flatMap_cons, dataPiecesOf_of_isEmpty he, List.drop_nil, List.map_nil,
        List.nil_append]
      exact ih
    · simp only [List.filter_cons, he, Bool.not_false, if_true, List.map_cons,
        List.flatMap_cons]
      rw [ih]

theorem mem_identifiersOf {lines : List String} {p : String} :
    p ∈ identifiersOf lines ↔
      ∃ line ∈ lines, ∃ f0, (dataPiecesOf line).head? = some f0 ∧ p = toUpper f0 := by
  unfold identifiersOf
  simp only [List.mem_filterMap, Option.map_eq_some']
  constructor
  · rintro ⟨l, hl, f0, hf, rfl⟩; exact ⟨l, hl, f0, hf, rfl⟩
  · rintro ⟨l, hl, f0, hf, rfl⟩; exact ⟨l, hl, f0, hf, rfl⟩

theorem mem_valid_iff (lines : List String)
    (hfields : ∀ line ∈ lines, line.data.isEmpty = false → 2 ≤ (dataPiecesOf line).length)
    (p : String) :
    p ∈ (nonEmptyLines lines).map (fun line => toUpper ((dataPiecesOf line).getD 0 "")) ↔
      p ∈ identifiersOf lines := by
  rw [mem_identifiersOf]
  simp only [nonEmptyLines, List.mem_map, List.mem_filter, Bool.not_eq_true']
  constructor
  · rintro ⟨l, ⟨hl, he⟩, rfl⟩
    have h2 := hfields l hl he
    cases hd : dataPiecesOf l with
    | nil => simp [hd] at h2
    | cons f0 fs => exact ⟨l, hl, f0, by rw [hd]; rfl, rfl⟩
  · rintro ⟨l, hl, f0, hf, rfl⟩
    have he : l.data.isEmpty = false := by
      cases h : l.data.isEmpty with
      | false => rfl
      | true => rw [dataPiecesOf_of_isEmpty h] at hf; simp at hf
    refine ⟨l, ⟨hl, he⟩, ?_⟩
    cases hd : dataPiecesOf l with
    | nil => simp [hd] at hf
    | cons g gs =>
      rw [hd] at hf
      simp only [List.head?_cons, Option.some.injEq] at hf
      simp [hf]

/-- The outcome of a load on a readable file, in one equation: the first line
with fewer than 2 fields makes it fail with the message on the line; otherwise
the first unresolved prerequisite reference makes it fail with the message on
the prerequisite; otherwise it returns one course for each line not skipped. -/
theorem LoadCoursesFromFile_some (filename : String) (lines : List String)
    (courses : List Course) :
    ((∃ line ∈ lines, line.data.isEmpty = false ∧ (dataPiecesOf line).length < 2) ∧
      LoadCoursesFromFile filename (some lines) courses =
        LoadOutcome.mk false courses (some LoadError.invalidLine)) ∨
    ((∀ line ∈ lines, line.data.isEmpty = false → 2 ≤ (dataPiecesOf line).length) ∧
      LoadCoursesFromFile filename (some lines) courses =
        match (prerequisiteRefs lines).find? (fun pc => decide (pc.1 ∉ identifiersOf lines)) with
        | some pc => LoadOutcome.mk false courses (some (LoadError.missingPrerequisite pc.1 pc.2))
        | none => LoadOutcome.mk true
            ((nonEmptyLines lines).map (fun line => makeCourse (dataPiecesOf line))) none) := by
  by_cases hbad : ∃ line ∈ lines, line.data.isEmpty = false ∧ (dataPiecesOf line).length < 2
  · left
    refine ⟨hbad, ?_⟩
    have := (readLines_eq_none_iff lines [] []).2 hbad
    simp [LoadCoursesFromFile, this]
  · right
    have hfields : ∀ line ∈ lines, line.data.isEmpty = false → 2 ≤ (dataPiecesOf line).length := by
      intro l hl he
      by_contra hlt
      exact hbad ⟨l, hl, he, by omega⟩
    refine ⟨hfields, ?_⟩
    have hne : readLines lines [] [] ≠ none := fun h => hbad ((readLines_eq_none_iff _ _ _).1 h)
    obtain ⟨⟨v, a⟩, hva⟩ := Option.ne_none_iff_exists'.1 hne
    obtain ⟨hv, ha⟩ := readLines_eq_some lines [] v [] a hva
    simp only [List.nil_append] at hv ha
    have hfind : (a.flatMap (fun fields =>
          (fields.drop 2).map (fun field => (toUpper field, fields.getD 0 "")))).find?
          (fun pc => decide (pc.1 ∉ v)) =
        (prerequisiteRefs lines).find? (fun pc => decide (pc.1 ∉ identifiersOf lines)) := by
      rw [ha, bind_nonEmptyLines]
      congr 1
      funext pc
      rw [hv, decide_eq_decide, not_iff_not]
      exact mem_valid_iff lines hfields pc.1
    simp only [LoadCoursesFromFile, hva, checkAll_eq, hfind]
    cases (prerequisiteRefs lines).find? (fun pc => decide (pc.1 ∉ identifiersOf lines)) with
    | some pc => rfl
    | none => simp [ha, List.map_map, Function.comp_def]

theorem isEmpty_data_eq_false_iff (line : String) : line.data.isEmpty = false ↔ line ≠ "" := by
  rw [Ne, ← isEmpty_data_iff, Bool.not_eq_true]

theorem nonEmptyLines_eq_filter (lines : List String) :
    nonEmptyLines lines = lines.filter (fun line => decide (line ≠ "")) := by
  unfold nonEmptyLines
  apply List.filter_congr
  intro l _
  cases h : l.data.isEmpty with
  | true => simp [(isEmpty_data_iff l).1 h]
  | false => simp [(isEmpty_data_eq_false_iff l).1 h]

theorem mem_prerequisiteRefs {lines : List String} {pc : String × String} :
    pc ∈ prerequisiteRefs lines ↔
      ∃ line ∈ lines, ∃ field ∈ (dataPiecesOf line).drop 2,
        pc = (toUpper field, (dataPiecesOf line).getD 0 "") := by
  unfold prerequisiteRefs
  simp only [List.mem_flatMap, List.mem_map]
  constructor
  · rintro ⟨l, hl, f, hf, rfl⟩; exact ⟨l, hl, f, hf, rfl⟩
  · rintro ⟨l, hl, f, hf, rfl⟩; exact ⟨l, hl, f, hf, rfl⟩

theorem exists_unresolved_iff (lines : List String) :
    (∃ line ∈ lines, ∃ field ∈ (dataPiecesOf line).drop 2,
        ∀ line' ∈ lines, ∀ f0, (dataPiecesOf line').head? = some f0 →
          toUpper field ≠ toUpper f0) ↔
      ∃ pc ∈ prerequisiteRefs lines, pc.1 ∉ identifiersOf lines := by
  constructor
  · rintro ⟨l, hl, f, hf, hno⟩
    refine ⟨(toUpper f, (dataPiecesOf l).getD 0 ""), mem_prerequisiteRefs.2 ⟨l, hl, f, hf, rfl⟩, ?_⟩
    intro hmem
    obtain ⟨l', hl', f0, hf0, heq⟩ := mem_identifiersOf.1 hmem
    exact hno l' hl' f0 hf0 heq
  · rintro ⟨pc, hpc, hno⟩
    obtain ⟨l, hl, f, hf, rfl⟩ := mem_prerequisiteRefs.1 hpc
    refine ⟨l, hl, f, hf, ?_⟩
    intro l' hl' f0 hf0 heq
    exact hno (mem_identifiersOf.2 ⟨l', hl', f0, hf0, heq⟩)

theorem find_unresolved_eq_none_iff (lines : List String) :
    (prerequisiteRefs lines).find? (fun pc => decide (pc.1 ∉ identifiersOf lines)) = none ↔
      ¬ ∃ pc ∈ prerequisiteRefs lines, pc.1 ∉ identifiersOf lines := by
  rw [List.find?_eq_none]
  simp

theorem recordOfFields_eq_makeCourse (fields : List String) (h : 2 ≤ fields.length) :
    recordOfFields fields = some (makeCourse fields) := by
  match fields, h with
  | f0 :: f1 :: rest, _ =>
    cases rest with
    | nil => rfl
    | cons f2 fs => simp [recordOfFields, makeCourse]

theorem LoadCoursesFromFile_ret_congr (filename : String) (file : Option (List String))
    (c1 c2 : List Course) :
    (LoadCoursesFromFile filename file c1).ret = (LoadCoursesFromFile filename file c2).ret := by
  unfold LoadCoursesFromFile
  cases file with
  | none => rfl
  | some lines =>
    simp only
    cases readLines lines [] [] with
    | none => rfl
    | some va =>
      obtain ⟨v, a⟩ := va
      simp only
      cases checkAll v a <;> rfl

/-- What a successful load has established: every line not skipped has at
least 2 fields, every prerequisite reference is an identifier of the input, and
the output holds one course for each line not skipped. -/
theorem load_success (filename : String) (lines : List String) (courses : List Course)
    (hok : (LoadCoursesFromFile filename (some lines) courses).ret = true) :
    (∀ line ∈ lines, line.data.isEmpty = false → 2 ≤ (dataPiecesOf line).length) ∧
    (∀ pc ∈ prerequisiteRefs lines, pc.1 ∈ identifiersOf lines) ∧
    LoadCoursesFromFile filename (some lines) courses =
      LoadOutcome.mk true
        ((nonEmptyLines lines).map (fun line => makeCourse (dataPiecesOf line))) none := by
  rcases LoadCoursesFromFile_some filename lines courses with ⟨_, hout⟩ | ⟨hgood, hout⟩
  · rw [hout] at hok; cases hok
  · cases hF : (prerequisiteRefs lines).find?
        (fun pc => decide (pc.1 ∉ identifiersOf lines)) with
    | some pc => rw [hout, hF] at hok; cases hok
    | none =>
      refine ⟨hgood, ?_, by rw [hout, hF]⟩
      intro pc hpc
      by_contra hno
      exact (find_unresolved_eq_none_iff lines).1 hF ⟨pc, hpc, hno⟩

theorem exists_course_of_mem_identifiersOf (lines : List String) (p : String)
    (hp : p ∈ identifiersOf lines) :
    ∃ r ∈ (nonEmptyLines lines).map (fun line => makeCourse (dataPiecesOf line)),
      r.courseNumber = p := by
  obtain ⟨l, hl, f0, hf0, rfl⟩ := mem_identifiersOf.1 hp
  have he : l.data.isEmpty = false := by
    cases h : l.data.isEmpty with
    | false => rfl
    | true => rw [dataPiecesOf_of_isEmpty h] at hf0; simp at hf0
  refine ⟨makeCourse (dataPiecesOf l), List.mem_map.2 ⟨l, ?_, rfl⟩, ?_⟩
  · exact List.mem_filter.2 ⟨hl, by simp [he]⟩
  · cases hd : dataPiecesOf l with
    | nil => rw [hd] at hf0; simp at hf0
    | cons g gs =>
      rw [hd] at hf0
      simp only [List.head?_cons, Option.some.injEq] at hf0
      rw [← hf0]
      rfl

theorem exists_bad_line_perm {lines lines' : List String} (hperm : lines'.Perm lines) :
    (∃ line ∈ lines', line.data.isEmpty = false ∧ (dataPiecesOf line).length < 2) ↔
      ∃ line ∈ lines, line.data.isEmpty = false ∧ (dataPiecesOf line).length < 2 := by
  constructor
  · rintro ⟨l, hl, h⟩; exact ⟨l, hperm.mem_iff.1 hl, h⟩
  · rintro ⟨l, hl, h⟩; exact ⟨l, hperm.mem_iff.2 hl, h⟩

theorem exists_unresolved_perm {lines lines' : List String} (hperm : lines'.Perm lines) :
    (∃ pc ∈ prerequisiteRefs lines', pc.1 ∉ identifiersOf lines') ↔
      ∃ pc ∈ prerequisiteRefs lines, pc.1 ∉ identifiersOf lines := by
  rw [← exists_unresolved_iff, ← exists_unresolved_iff]
  constructor
  · rintro ⟨l, hl, f, hf, h⟩
    exact ⟨l, hperm.mem_iff.1 hl, f, hf, fun l' hl' => h l' (hperm.mem_iff.2 hl')⟩
  · rintro ⟨l, hl, f, hf, h⟩
    exact ⟨l, hperm.mem_iff.2 hl, f, hf, fun l' hl' => h l' (hperm.mem_iff.1 hl')⟩

theorem find_unresolved_some {lines : List String} {pc : String × String}
    (h : (prerequisiteRefs lines).find? (fun pc => decide (pc.1 ∉ identifiersOf lines)) =
      some pc) :
    ∃ pc ∈ prerequisiteRefs lines, pc.1 ∉ identifiersOf lines :=
  ⟨pc, List.mem_of_find?_eq_some h, by simpa using List.find?_some h⟩

theorem readLines_nonEmptyLines (lines : List String) (v : List String)
    (a : List (List String)) :
    readLines lines v a = readLines (nonEmptyLines lines) v a := by
  induction lines generalizing v a with
  | nil => rfl
  | cons l ls ih =>
    by_cases he : l.data.isEmpty = true
    · simp only [nonEmptyLines, List.filter_cons, he, Bool.not_true, Bool.false_eq_true,
        if_false]
      simp only [readLines, he, if_true]
      exact ih v a
    · simp only [nonEmptyLines, List.filter_cons, he, Bool.not_false, if_true]
      simp only [readLines, he, Bool.false_eq_true, if_false]
      split_ifs
      · rfl
      · exact ih _ _

theorem LoadCoursesFromFile_nonEmptyLines (filename : String) (lines : List String)
    (courses : List Course) :
    LoadCoursesFromFile filename (some lines) courses =
      LoadCoursesFromFile filename (some (nonEmptyLines lines)) courses := by
  unfold LoadCoursesFromFile
  simp only
  rw [readLines_nonEmptyLines]

theorem find_course_of_exists (courses : List Course) (k : String)
    (h : ∃ r0 ∈ courses, r0.courseNumber = k) :
    ∃ r, courses.find? (fun c => decide (k = c.courseNumber)) = some r ∧ r.courseNumber = k := by
  obtain ⟨r0, hr0, hk⟩ := h
  cases hfind : courses.find? (fun c => decide (k = c.courseNumber)) with
  | none =>
    have := List.find?_eq_none.1 hfind r0 hr0
    simp [hk] at this
  | some r =>
    have hr : k = r.courseNumber := by simpa using List.find?_some hfind
    exact ⟨r, rfl, hr.symm⟩

theorem prerequisite_of_loaded (lines : List String) (r : Course)
    (hres : ∀ pc ∈ prerequisiteRefs lines, pc.1 ∈ identifiersOf lines)
    (hr : r ∈ (nonEmptyLines lines).map (fun line => makeCourse (dataPiecesOf line)))
    (p : String) (hp : p ∈ r.prerequisites) :
    p ∈ identifiersOf lines ∧ toUpper p = p := by
  obtain ⟨l, hl, rfl⟩ := List.mem_map.1 hr
  have hl' := (List.mem_filter.1 hl).1
  have hp' : p ∈ ((dataPiecesOf l).drop 2).map toUpper := by
    unfold makeCourse at hp
    simp only at hp
    split_ifs at hp
    · exact hp
    · cases hp
  obtain ⟨f, hf, rfl⟩ := List.mem_map.1 hp'
  exact ⟨hres (toUpper f, (dataPiecesOf l).getD 0 "")
    (mem_prerequisiteRefs.2 ⟨l, hl', f, hf, rfl⟩), toUpper_idem f⟩

theorem SearchHelper_key (t : Node) (k : String) (c : Course)
    (h : SearchHelper t k = some c) : c.courseNumber = k := by
  induction t with
  | nullptr => simp [SearchHelper] at h
  | node d l r ihl ihr =>
    simp only [SearchHelper] at h
    split_ifs at h with h1 h2
    · simp only [Option.some.injEq] at h
      rw [← h, h1]
    · exact ihl h
    · exact ihr h

theorem toUpper_no_lower (q : String) :
    ∀ c ∈ (toUpper q).data, ¬ (97 ≤ c.toNat ∧ c.toNat ≤ 122) := by
  intro c hc
  unfold toUpper at hc
  obtain ⟨d, _, rfl⟩ := List.mem_map.1 hc
  exact toupper_not_lower d

/-- The number of pieces the extraction loop delivers: one for each comma, and
one more when the stream ends in a character that is not a comma (or, on an
exhausted stream, when characters are pending). -/
theorem getPieces_length (s cur : List Char) :
    (getPieces s cur).length =
      s.count ',' +
        (match s.getLast? with
          | some c => if c = ',' then 0 else 1
          | none => if cur.isEmpty then 0 else 1) := by
  induction s generalizing cur with
  | nil =>
    simp only [getPieces, List.count_nil, List.getLast?_nil, Nat.zero_add]
    split_ifs <;> rfl
  | cons c cs ih =>
    simp only [getPieces]
    by_cases hc : c = ','
    · subst hc
      rw [if_pos rfl, List.length_cons, ih, List.count_cons_self]
      cases cs with
      | nil => simp
      | cons d ds =>
        rw [List.getLast?_cons_cons, List.getLast?_eq_getLast (d :: ds) (by simp)]
        simp only
        omega
    · rw [if_neg hc, ih, List.count_cons_of_ne (Ne.symm hc)]
      cases cs with
      | nil => simp [hc]
      | cons d ds =>
        rw [List.getLast?_cons_cons, List.getLast?_eq_getLast (d :: ds) (by simp)]

theorem dataPiecesOf_length (line : String) (hne : line ≠ "") :
    (dataPiecesOf line).length =
      if line.data.getLast? = some ',' then line.data.count ','
      else line.data.count ',' + 1 := by
  unfold dataPiecesOf
  rw [List.length_map, getPieces_length]
  have hdata : line.data ≠ [] := fun h => hne (String.ext h)
  cases hl : line.data.getLast? with
  | none => exact absurd (List.getLast?_eq_none_iff.1 hl) hdata
  | some c =>
    by_cases hc : c = ','
    · simp [hc]
    · simp [hc]

/-! ## Lemmas on positions in the tree -/

theorem PopulateBST_append (xs ys : List Course) (bst : BinarySearchTree) :
    PopulateBST (xs ++ ys) bst = PopulateBST ys (PopulateBST xs bst) := by
  induction xs generalizing bst with
  | nil => rfl
  | cons x xs ih => simp only [List.cons_append, PopulateBST]; exact ih _

theorem insertBelow_rightSpine (xs : List Course) (x : Course)
    (h : ∀ y ∈ xs, strLt x.courseNumber y.courseNumber = false) :
    insertBelow (rightSpine xs) x = rightSpine (xs ++ [x]) := by
  induction xs with
  | nil => rfl
  | cons y ys ih =>
    rw [List.cons_append]
    simp only [rightSpine]
    rw [insertBelow_node, h y (List.mem_cons_self _ _)]
    simp only [Bool.false_eq_true, if_false]
    rw [ih (fun z hz => h z (List.mem_cons_of_mem _ hz))]

theorem PopulateBST_rightSpine (records : List Course)
    (hsorted : List.Pairwise (fun a b : Course => strLe a.courseNumber b.courseNumber = true)
      records) :
    (PopulateBST records BinarySearchTree.empty).root = rightSpine records := by
  induction records using List.reverseRecOn with
  | nil => rfl
  | append_singleton xs x ih =>
    rw [List.pairwise_append] at hsorted
    obtain ⟨hxs, _, hcross⟩ := hsorted
    rw [PopulateBST_append]
    simp only [PopulateBST]
    rw [Insert_root, ih hxs]
    apply insertBelow_rightSpine
    intro y hy
    have := hcross y hy x (List.mem_singleton.2 rfl)
    simpa [strLe] using this

theorem depth_rightSpine (xs : List Course) : depth (rightSpine xs) = xs.length := by
  induction xs with
  | nil => rfl
  | cons x xs ih => simp only [rightSpine, depth, ih, List.length_cons]; omega

theorem noLeftChild_rightSpine (xs : List Course) : noLeftChild (rightSpine xs) = true := by
  induction xs with
  | nil => rfl
  | cons x xs ih => simpa only [rightSpine, noLeftChild] using ih

theorem subtreeAt_nullptr (path : List Bool) : subtreeAt Node.nullptr path = Node.nullptr := by
  cases path <;> rfl

theorem courseAt_nullptr (path : List Bool) : courseAt Node.nullptr path = none := by
  unfold courseAt
  rw [subtreeAt_nullptr]

theorem subtreeAt_insertPath (t : Node) (course : Course) :
    subtreeAt t (insertPath t course) = Node.nullptr := by
  induction t with
  | nullptr => rfl
  | node c l r ihl ihr =>
    simp only [insertPath]
    split_ifs
    · simpa only [subtreeAt] using ihl
    · simpa only [subtreeAt] using ihr

theorem subtreeAt_insertBelow_insertPath (t : Node) (course : Course) :
    subtreeAt (insertBelow t course) (insertPath t course) =
      Node.node course Node.nullptr Node.nullptr := by
  induction t with
  | nullptr => rfl
  | node c l r ihl ihr =>
    rw [insertBelow_node]
    simp only [insertPath]
    split_ifs
    · simpa only [subtreeAt] using ihl
    · simpa only [subtreeAt] using ihr

theorem courseAt_insertBelow (t : Node) (course : Course) (path : List Bool) :
    courseAt (insertBelow t course) path =
      if path = insertPath t course then some course else courseAt t path := by
  induction t generalizing path with
  | nullptr =>
    cases path with
    | nil => rfl
    | cons b p =>
      have hne : ¬ (b :: p = insertPath Node.nullptr course) := by simp [insertPath]
      rw [if_neg hne, courseAt_nullptr]
      cases b <;> simp [insertBelow, courseAt, subtreeAt, subtreeAt_nullptr]
  | node c l r ihl ihr =>
    rw [insertBelow_node]
    simp only [insertPath]
    by_cases hc : strLt course.courseNumber c.courseNumber = true
    · simp only [if_pos hc]
      cases path with
      | nil => simp [courseAt, subtreeAt]
      | cons b p =>
        cases b with
        | false =>
          have := ihl p
          simp only [courseAt, subtreeAt, List.cons.injEq, true_and] at this ⊢
          exact this
        | true => simp [courseAt, subtreeAt]
    · simp only [if_neg hc]
      cases path with
      | nil => simp [courseAt, subtreeAt]
      | cons b p =>
        cases b with
        | false => simp [courseAt, subtreeAt]
        | true =>
          have := ihr p
          simp only [courseAt, subtreeAt, List.cons.injEq, true_and] at this ⊢
          exact this

theorem courseAt_insertPath (t : Node) (course : Course) :
    courseAt t (insertPath t course) = none := by
  unfold courseAt
  rw [subtreeAt_insertPath]

theorem courseAt_cons_false (c : Course) (l r : Node) (p : List Bool) :
    courseAt (Node.node c l r) (false :: p) = courseAt l p := rfl

theorem courseAt_cons_true (c : Course) (l r : Node) (p : List Bool) :
    courseAt (Node.node c l r) (true :: p) = courseAt r p := rfl

/-- The position `SearchHelperPath` gives is the position of the course
`SearchHelper` returns, and both fail together. -/
theorem SearchHelper_eq_bind (t : Node) (k : String) :
    SearchHelper t k = (SearchHelperPath t k).bind (courseAt t) := by
  induction t with
  | nullptr => rfl
  | node c l r ihl ihr =>
    simp only [SearchHelper, SearchHelperPath]
    split_ifs with h1 h2
    · rfl
    · rw [ihl]
      cases SearchHelperPath l k with
      | none => rfl
      | some p => rfl
    · rw [ihr]
      cases SearchHelperPath r k with
      | none => rfl
      | some p => rfl

theorem courseAt_of_SearchHelperPath (t : Node) (k : String) (p : List Bool)
    (h : SearchHelperPath t k = some p) : ∃ c, courseAt t p = some c := by
  induction t generalizing p with
  | nullptr => simp [SearchHelperPath] at h
  | node c l r ihl ihr =>
    simp only [SearchHelperPath] at h
    split_ifs at h with h1 h2
    · simp only [Option.some.injEq] at h
      subst h
      exact ⟨c, rfl⟩
    · obtain ⟨p', hp', rfl⟩ := Option.map_eq_some'.1 h
      rw [courseAt_cons_false]
      exact ihl p' hp'
    · obtain ⟨p', hp', rfl⟩ := Option.map_eq_some'.1 h
      rw [courseAt_cons_true]
      exact ihr p' hp'

theorem SearchHelperPath_eq_none_iff (t : Node) (k : String) :
    SearchHelperPath t k = none ↔ SearchHelper t k = none := by
  rw [SearchHelper_eq_bind]
  cases h : SearchHelperPath t k with
  | none => simp
  | some p =>
    obtain ⟨c, hc⟩ := courseAt_of_SearchHelperPath t k p h
    simp [hc]

theorem SearchHelperPath_insertBelow (t : Node) (course : Course) (k : String) :
    SearchHelperPath (insertBelow t course) k =
      match SearchHelperPath t k with
      | some p => some p
      | none => if k = course.courseNumber then some (insertPath t course) else none := by
  induction t with
  | nullptr => simp [insertBelow, SearchHelperPath, insertPath]
  | node c l r ihl ihr =>
    rw [insertBelow_node]
    simp only [insertPath]
    by_cases hc : strLt course.courseNumber c.courseNumber = true
    · simp only [if_pos hc, SearchHelperPath]
      by_cases hk : k = c.courseNumber
      · simp [hk]
      · simp only [if_neg hk]
        by_cases hlt : strLt k c.courseNumber = true
        · simp only [if_pos hlt, ihl]
          cases SearchHelperPath l k with
          | some p => rfl
          | none => simp only [Option.map_none']; split_ifs <;> rfl
        · simp only [if_neg hlt]
          have hne : k ≠ course.courseNumber := by
            rintro rfl; exact hlt hc
          cases SearchHelperPath r k <;> simp [hne]
    · simp only [if_neg hc, SearchHelperPath]
      by_cases hk : k = c.courseNumber
      · simp [hk]
      · simp only [if_neg hk]
        by_cases hlt : strLt k c.courseNumber = true
        · simp only [if_pos hlt]
          have hne : k ≠ course.courseNumber := by
            rintro rfl; exact hc hlt
          cases SearchHelperPath l k <;> simp [hne]
        · simp only [if_neg hlt, ihr]
          cases SearchHelperPath r k with
          | some p => rfl
          | none => simp only [Option.map_none']; split_ifs <;> rfl

theorem courseAt_PopulateBST (courses : List Course) (bst : BinarySearchTree)
    (p : List Bool) (c : Course) (h : courseAt bst.root p = some c) :
    courseAt (PopulateBST courses bst).root p = some c := by
  induction courses generalizing bst with
  | nil => exact h
  | cons x xs ih =>
    simp only [PopulateBST]
    apply ih
    rw [Insert_root, courseAt_insertBelow]
    split_ifs with hp
    · rw [hp, courseAt_insertPath] at h
      cases h
    · exact h

theorem SearchHelperPath_PopulateBST_of_some (courses : List Course) (bst : BinarySearchTree)
    (k : String) (p : List Bool) (h : SearchHelperPath bst.root k = some p) :
    SearchHelperPath (PopulateBST courses bst).root k = some p := by
  induction courses generalizing bst with
  | nil => exact h
  | cons x xs ih =>
    simp only [PopulateBST]
    apply ih
    rw [Insert_root, SearchHelperPath_insertBelow, h]

theorem SearchHelperPath_PopulateBST_of_none (courses : List Course) (bst : BinarySearchTree)
    (k : String) (p : List Bool) (hnone : SearchHelperPath bst.root k = none)
    (h : SearchHelperPath (PopulateBST courses bst).root k = some p) :
    courseAt bst.root p = none := by
  induction courses generalizing bst with
  | nil =>
    simp only [PopulateBST] at h
    rw [hnone] at h
    cases h
  | cons x xs ih =>
    simp only [PopulateBST] at h
    have hins := SearchHelperPath_insertBelow bst.root x k
    rw [hnone, ← Insert_root] at hins
    simp only at hins
    by_cases hk : k = x.courseNumber
    · rw [if_pos hk] at hins
      have := SearchHelperPath_PopulateBST_of_some xs (bst.Insert x) k _ hins
      rw [this] at h
      simp only [Option.some.injEq] at h
      rw [← h]
      exact courseAt_insertPath _ _
    · rw [if_neg hk] at hins
      have hmid := ih (bst.Insert x) hins h
      cases hc : courseAt bst.root p with
      | none => rfl
      | some c =>
        have := courseAt_PopulateBST [x] bst p c hc
        simp only [PopulateBST] at this
        rw [this] at hmid
        cases hmid

/-- A record inserted after another record with the same identifier sits at a
position that no search ever reaches. -/
theorem shadowed_position (pre post : List Course) (r : Course)
    (hdup : ∃ r0 ∈ pre, r0.courseNumber = r.courseNumber) :
    courseAt (PopulateBST (pre ++ r :: post) BinarySearchTree.empty).root
        (insertPath (PopulateBST pre BinarySearchTree.empty).root r) = some r ∧
    ∀ k : String, SearchHelperPath (PopulateBST (pre ++ r :: post) BinarySearchTree.empty).root k ≠
      some (insertPath (PopulateBST pre BinarySearchTree.empty).root r) := by
  rw [PopulateBST_append]
  simp only [PopulateBST]
  have hmid : courseAt ((PopulateBST pre BinarySearchTree.empty).Insert r).root
      (insertPath (PopulateBST pre BinarySearchTree.empty).root r) = some r := by
    rw [Insert_root, courseAt_insertBelow, if_pos rfl]
  refine ⟨courseAt_PopulateBST post _ _ r hmid, ?_⟩
  intro k hk
  cases hs : SearchHelperPath ((PopulateBST pre BinarySearchTree.empty).Insert r).root k with
  | none =>
    have := SearchHelperPath_PopulateBST_of_none post _ k _ hs hk
    rw [hmid] at this
    cases this
  | some p =>
    have hfin := SearchHelperPath_PopulateBST_of_some post _ k p hs
    rw [hfin] at hk
    simp only [Option.some.injEq] at hk
    subst hk
    rw [Insert_root, SearchHelperPath_insertBelow] at hs
    cases hpre : SearchHelperPath (PopulateBST pre BinarySearchTree.empty).root k with
    | some p0 =>
      rw [hpre] at hs
      simp only [Option.some.injEq] at hs
      obtain ⟨c, hc⟩ := courseAt_of_SearchHelperPath _ k p0 hpre
      rw [hs, courseAt_insertPath] at hc
      cases hc
    | none =>
      rw [hpre] at hs
      simp only at hs
      by_cases hkr : k = r.courseNumber
      · have hnone := (SearchHelperPath_eq_none_iff _ _).1 hpre
        rw [SearchHelper_PopulateBST] at hnone
        simp only [BinarySearchTree.empty, SearchHelper] at hnone
        obtain ⟨r0, hr0, hid⟩ := hdup
        have := List.find?_eq_none.1 hnone r0 hr0
        simp [hkr, hid] at this
      · rw [if_neg hkr] at hs
        cases hs

/-! ## Lemmas on the stable sort -/

theorem withIdentifier_append (k : String) (xs ys : List Course) :
    withIdentifier k (xs ++ ys) = withIdentifier k xs ++ withIdentifier k ys := by
  unfold withIdentifier
  exact List.filter_append xs ys

theorem withIdentifier_cons (k : String) (x : Course) (xs : List Course) :
    withIdentifier k (x :: xs) =
      if x.courseNumber = k then x :: withIdentifier k xs else withIdentifier k xs := by
  unfold withIdentifier
  by_cases h : x.courseNumber = k
  · simp [h]
  · simp [h]

theorem withIdentifier_eq_nil {k : String} {xs : List Course}
    (h : ∀ y ∈ xs, y.courseNumber ≠ k) : withIdentifier k xs = [] := by
  unfold withIdentifier
  rw [List.filter_eq_nil_iff]
  intro y hy
  simpa using h y hy

theorem withIdentifier_insertBelow (t : Node) (x : Course) (k : String)
    (h : descentOrdered t = true) :
    withIdentifier k (inOrderPrintHelper (insertBelow t x)) =
      withIdentifier k (inOrderPrintHelper t) ++ withIdentifier k [x] := by
  induction t with
  | nullptr => rfl
  | node c l r ihl ihr =>
    simp only [descentOrdered, Bool.and_eq_true, List.all_eq_true] at h
    obtain ⟨⟨⟨hl, hr⟩, _⟩, hge⟩ := h
    rw [insertBelow_node]
    by_cases hc : strLt x.courseNumber c.courseNumber = true
    · rw [if_pos hc]
      simp only [inOrderPrintHelper, withIdentifier_append, ihl hl]
      by_cases hk : x.courseNumber = k
      · have hnil : withIdentifier k (c :: inOrderPrintHelper r) = [] := by
          apply withIdentifier_eq_nil
          intro y hy hyk
          rcases List.mem_cons.1 hy with rfl | hy
          · rw [hyk, ← hk, strLt_irrefl] at hc
            cases hc
          · have := hge y hy
            rw [strLe, hyk, ← hk, hc] at this
            cases this
        rw [hnil, List.append_nil, List.append_nil]
      · have hx : withIdentifier k [x] = [] :=
          withIdentifier_eq_nil (fun y hy => by rw [List.mem_singleton.1 hy]; exact hk)
        rw [hx, List.append_nil, List.append_nil]
    · rw [if_neg hc]
      simp only [inOrderPrintHelper, withIdentifier_append, withIdentifier_cons, ihr hr]
      split_ifs <;> simp [List.append_assoc]

theorem withIdentifier_PopulateBST (courses : List Course) (bst : BinarySearchTree)
    (k : String) (h : descentOrdered bst.root = true) :
    withIdentifier k (PopulateBST courses bst).traverse =
      withIdentifier k bst.traverse ++ withIdentifier k courses := by
  induction courses generalizing bst with
  | nil => simp [PopulateBST, withIdentifier]
  | cons x xs ih =>
    simp only [PopulateBST]
    have hord : descentOrdered (bst.Insert x).root = true := by
      rw [Insert_root]; exact descentOrdered_insertBelow _ _ h
    rw [ih (bst.Insert x) hord]
    unfold BinarySearchTree.traverse
    rw [Insert_root, withIdentifier_insertBelow _ _ _ h, List.append_assoc,
      ← withIdentifier_append]
    rfl

theorem withIdentifier_orderedInsert (k : String) (a : Course) (l : List Course) :
    withIdentifier k
        (l.orderedInsert (fun a b : Course => strLe a.courseNumber b.courseNumber = true) a) =
      withIdentifier k (a :: l) := by
  induction l with
  | nil => rfl
  | cons b bs ih =>
    simp only [List.orderedInsert]
    split_ifs with hab
    · rfl
    · rw [withIdentifier_cons k b, ih, withIdentifier_cons k a, withIdentifier_cons k a,
        withIdentifier_cons k b]
      have hne : ¬ (a.courseNumber = k ∧ b.courseNumber = k) := by
        rintro ⟨ha, hb⟩
        apply hab
        rw [ha, hb]
        exact strLe_refl k
      by_cases ha : a.courseNumber = k
      · have hb : ¬ b.courseNumber = k := fun hb => hne ⟨ha, hb⟩
        simp [ha, hb]
      · simp [ha]

theorem withIdentifier_stableSort (k : String) (records : List Course) :
    withIdentifier k (stableSortByIdentifier records) = withIdentifier k records := by
  unfold stableSortByIdentifier
  induction records with
  | nil => rfl
  | cons a l ih =>
    simp only [List.insertionSort]
    rw [withIdentifier_orderedInsert, withIdentifier_cons, withIdentifier_cons, ih]

theorem pairwise_stableSort (records : List Course) :
    List.Pairwise (fun a b : Course => strLe a.courseNumber b.courseNumber = true)
      (stableSortByIdentifier records) := by
  haveI : IsTrans Course (fun a b : Course => strLe a.courseNumber b.courseNumber = true) :=
    ⟨fun _ _ _ h1 h2 => strLe_trans h1 h2⟩
  haveI : IsTotal Course (fun a b : Course => strLe a.courseNumber b.courseNumber = true) :=
    ⟨fun a b => strLe_total a.courseNumber b.courseNumber⟩
  exact List.sorted_insertionSort _ records

theorem mem_of_withIdentifier_ne_nil {k : String} {x : Course} {xs : List Course}
    (h : x ∈ withIdentifier k xs) : x ∈ xs ∧ x.courseNumber = k := by
  unfold withIdentifier at h
  simpa using List.mem_filter.1 h

/-- Two lists sorted by identifier that hold, for every identifier, the same
records with that identifier in the same order are equal. -/
theorem eq_of_sorted_of_withIdentifier : ∀ (l1 l2 : List Course),
    List.Pairwise (fun a b : Course => strLe a.courseNumber b.courseNumber = true) l1 →
    List.Pairwise (fun a b : Course => strLe a.courseNumber b.courseNumber = true) l2 →
    (∀ k, withIdentifier k l1 = withIdentifier k l2) → l1 = l2 := by
  intro l1
  induction l1 with
  | nil =>
    intro l2 _ _ h
    cases l2 with
    | nil => rfl
    | cons b t2 =>
      have := h b.courseNumber
      rw [withIdentifier_cons, if_pos rfl] at this
      cases this
  | cons a t1 ih =>
    intro l2 hs1 hs2 h
    cases l2 with
    | nil =>
      have := h a.courseNumber
      rw [withIdentifier_cons, if_pos rfl] at this
      cases this
    | cons b t2 =>
      rw [List.pairwise_cons] at hs1 hs2
      have hkey : a.courseNumber = b.courseNumber := by
        by_contra hne
        have ha : a ∈ withIdentifier a.courseNumber (b :: t2) := by
          rw [← h a.courseNumber, withIdentifier_cons, if_pos rfl]
          exact List.mem_cons_self _ _
        have hb : b ∈ withIdentifier b.courseNumber (a :: t1) := by
          rw [h b.courseNumber, withIdentifier_cons, if_pos rfl]
          exact List.mem_cons_self _ _
        have ha' : a ∈ t2 := by
          rcases List.mem_cons.1 (mem_of_withIdentifier_ne_nil ha).1 with hab | hmem
          · exact absurd (congrArg Course.courseNumber hab) hne
          · exact hmem
        have hb' : b ∈ t1 := by
          rcases List.mem_cons.1 (mem_of_withIdentifier_ne_nil hb).1 with hba | hmem
          · exact absurd (congrArg Course.courseNumber hba).symm hne
          · exact hmem
        exact hne (strLe_antisymm (hs1.1 b hb') (hs2.1 a ha'))
      have hhead := h a.courseNumber
      rw [withIdentifier_cons, withIdentifier_cons, if_pos rfl, if_pos hkey.symm] at hhead
      have hab : a = b := (List.cons.inj hhead).1
      subst hab
      congr 1
      apply ih t2 hs1.2 hs2.2
      intro k
      have hk := h k
      rw [withIdentifier_cons, withIdentifier_cons] at hk
      split_ifs at hk
      · exact (List.cons.inj hk).2
      · exact hk

/-! ## The strict order holds when the identifiers are pairwise distinct -/

theorem strLt_of_le_of_ne {a b : String} (hle : strLe a b = true) (hne : a ≠ b) :
    strLt a b = true := by
  cases h : strLt a b with
  | true => rfl
  | false =>
    have hba : strLe b a = true := by simp [strLe, h]
    exact absurd (strLe_antisymm hle hba) hne

theorem strictlyOrdered_insertBelow (t : Node) (x : Course)
    (h : strictlyOrdered t = true)
    (hnew : ∀ y ∈ inOrderPrintHelper t, y.courseNumber ≠ x.courseNumber) :
    strictlyOrdered (insertBelow t x) = true := by
  induction t with
  | nullptr => simp [insertBelow, strictlyOrdered, inOrderPrintHelper]
  | node c l r ihl ihr =>
    simp only [strictlyOrdered, Bool.and_eq_true, List.all_eq_true] at h
    obtain ⟨⟨⟨hl, hr⟩, hlt⟩, hgt⟩ := h
    have hnl : ∀ y ∈ inOrderPrintHelper l, y.courseNumber ≠ x.courseNumber :=
      fun y hy => hnew y (by simp [inOrderPrintHelper, hy])
    have hnr : ∀ y ∈ inOrderPrintHelper r, y.courseNumber ≠ x.courseNumber :=
      fun y hy => hnew y (by simp [inOrderPrintHelper, hy])
    have hnc : c.courseNumber ≠ x.courseNumber :=
      hnew c (by simp [inOrderPrintHelper])
    rw [insertBelow_node]
    by_cases hc : strLt x.courseNumber c.courseNumber = true
    · rw [if_pos hc]
      simp only [strictlyOrdered, Bool.and_eq_true, List.all_eq_true]
      refine ⟨⟨⟨ihl hl hnl, hr⟩, ?_⟩, hgt⟩
      intro y hy
      rcases (mem_inOrder_insertBelow l x y).1 hy with rfl | hy
      · exact hc
      · exact hlt y hy
    · rw [if_neg hc]
      simp only [strictlyOrdered, Bool.and_eq_true, List.all_eq_true]
      refine ⟨⟨⟨hl, ihr hr hnr⟩, hlt⟩, ?_⟩
      intro y hy
      rcases (mem_inOrder_insertBelow r x y).1 hy with rfl | hy
      · exact strLt_of_le_of_ne (by simpa [strLe] using hc) hnc
      · exact hgt y hy

theorem strictlyOrdered_PopulateBST (records : List Course) (bst : BinarySearchTree)
    (h : strictlyOrdered bst.root = true)
    (hdistinct : (records.map Course.courseNumber).Nodup)
    (hfresh : ∀ y ∈ bst.traverse, ∀ x ∈ records, y.courseNumber ≠ x.courseNumber) :
    strictlyOrdered (PopulateBST records bst).root = true := by
  induction records generalizing bst with
  | nil => exact h
  | cons x xs ih =>
    rw [List.map_cons, List.nodup_cons] at hdistinct
    simp only [PopulateBST]
    apply ih
    · rw [Insert_root]
      exact strictlyOrdered_insertBelow _ _ h
        (fun y hy => hfresh y hy x (List.mem_cons_self _ _))
    · exact hdistinct.2
    · intro y hy z hz
      unfold BinarySearchTree.traverse at hy
      rw [Insert_root, mem_inOrder_insertBelow] at hy
      rcases hy with rfl | hy
      · intro heq
        exact hdistinct.1 (heq ▸ List.mem_map_of_mem Course.courseNumber hz)
      · exact hfresh y hy z (List.mem_cons_of_mem _ hz)

/-- With pairwise distinct identifiers the inserts do maintain `left < parent <
right`. -/
theorem strictlyOrdered_of_nodup (records : List Course)
    (hdistinct : (records.map Course.courseNumber).Nodup) :
    strictlyOrdered (PopulateBST records BinarySearchTree.empty).root = true :=
  strictlyOrdered_PopulateBST records BinarySearchTree.empty rfl hdistinct
    (fun y hy => by simp [BinarySearchTree.traverse, BinarySearchTree.empty,
      inOrderPrintHelper] at hy)

/-! ## Theorems -/

/-- C1: populating an empty index with any list of records, in list order,
and traversing it in order yields a sequence whose identifiers are in
non-decreasing lexicographic order and which is a permutation of the list. -/
theorem traverse_populate_sorted_perm (records : List Course) :
    List.Pairwise (fun a b : Course => strLe a.courseNumber b.courseNumber = true)
        (PopulateBST records BinarySearchTree.empty).traverse ∧
      List.Perm (PopulateBST records BinarySearchTree.empty).traverse records := by
  constructor
  · exact inOrder_pairwise_of_descentOrdered _
      (PopulateBST_descentOrdered records BinarySearchTree.empty rfl)
  · simpa [BinarySearchTree.traverse, BinarySearchTree.empty, inOrderPrintHelper]
      using PopulateBST_traverse_perm records BinarySearchTree.empty

/-- C2: when the identifiers of the inserted records are pairwise distinct and
already uppercase, searching the identifier of any inserted record returns
exactly that record, whatever the order of insertion. -/
theorem search_returns_inserted (records : List Course)
    (hdistinct : (records.map Course.courseNumber).Nodup)
    (hupper : ∀ r ∈ records, toUpper r.courseNumber = r.courseNumber)
    (r : Course) (hr : r ∈ records) :
    (PopulateBST records BinarySearchTree.empty).Search r.courseNumber = some r := by
  rw [Search_PopulateBST_empty, hupper r hr]
  induction records with
  | nil => cases hr
  | cons c cs ih =>
    rw [List.map_cons, List.nodup_cons] at hdistinct
    rcases List.mem_cons.1 hr with rfl | hmem
    · simp
    · have hne : r.courseNumber ≠ c.courseNumber := by
        intro h
        exact hdistinct.1 (h ▸ List.mem_map_of_mem Course.courseNumber hmem)
      rw [List.find?_cons_of_neg _ (by simpa using hne)]
      exact ih hdistinct.2 (fun x hx => hupper x (List.mem_cons_of_mem _ hx)) hmem

theorem search_returns_inserted_witness :
    (PopulateBST [Course.mk "CSCI201" "Data Structures" ["CSCI101"],
        Course.mk "CSCI101" "Intro to CS" [], Course.mk "MATH101" "Calculus I" []]
      BinarySearchTree.empty).Search "CSCI101" = some (Course.mk "CSCI101" "Intro to CS" []) :=
  search_returns_inserted
    [Course.mk "CSCI201" "Data Structures" ["CSCI101"],
      Course.mk "CSCI101" "Intro to CS" [], Course.mk "MATH101" "Calculus I" []]
    (by decide) (by decide) (Course.mk "CSCI101" "Intro to CS" []) (by decide)

/-- C3: on the empty index every search returns not-found, and on an index
built from the empty one by any sequence of inserts a query whose uppercased
form differs from the identifier of every inserted record returns not-found
(`none`, a normal result of the total function `Search`). -/
theorem search_absent_not_found :
    (∀ q : String, BinarySearchTree.empty.Search q = none) ∧
    (∀ (records : List Course) (q : String),
      (∀ r ∈ records, toUpper q ≠ r.courseNumber) →
      (PopulateBST records BinarySearchTree.empty).Search q = none) := by
  constructor
  · intro q; rfl
  · intro records q h
    rw [Search_PopulateBST_empty, List.find?_eq_none]
    intro x hx
    simpa using h x hx

theorem search_absent_not_found_witness :
    (PopulateBST [Course.mk "CSCI201" "Data Structures" ["CSCI101"],
        Course.mk "CSCI101" "Intro to CS" []]
      BinarySearchTree.empty).Search "math101" = none :=
  search_absent_not_found.2
    [Course.mk "CSCI201" "Data Structures" ["CSCI101"], Course.mk "CSCI101" "Intro to CS" []]
    "math101" (by decide)

/-- C4: on a readable input, load fails with the malformed-record message if
and only if some non-empty line is parsed into fewer than 2 fields, whatever
the other lines contain; in that case the output vector is left as it was, so
no record is returned. -/
theorem load_malformed_iff (filename : String) (lines : List String) (courses : List Course) :
    (((LoadCoursesFromFile filename (some lines) courses).ret = false ∧
        (LoadCoursesFromFile filename (some lines) courses).cerr = some LoadError.invalidLine) ↔
      ∃ line ∈ lines, line ≠ "" ∧ (dataPiecesOf line).length < 2) ∧
    ((∃ line ∈ lines, line ≠ "" ∧ (dataPiecesOf line).length < 2) →
      LoadCoursesFromFile filename (some lines) courses =
        LoadOutcome.mk false courses (some LoadError.invalidLine)) := by
  have hiff : (∃ line ∈ lines, line ≠ "" ∧ (dataPiecesOf line).length < 2) ↔
      ∃ line ∈ lines, line.data.isEmpty = false ∧ (dataPiecesOf line).length < 2 := by
    constructor
    · rintro ⟨l, hl, hne, hlen⟩; exact ⟨l, hl, (isEmpty_data_eq_false_iff l).2 hne, hlen⟩
    · rintro ⟨l, hl, hne, hlen⟩; exact ⟨l, hl, (isEmpty_data_eq_false_iff l).1 hne, hlen⟩
  rcases LoadCoursesFromFile_some filename lines courses with ⟨hbad, hout⟩ | ⟨hgood, hout⟩
  · refine ⟨⟨fun _ => hiff.2 hbad, fun _ => by rw [hout]; exact ⟨rfl, rfl⟩⟩, fun _ => hout⟩
  · have hnot : ¬ ∃ line ∈ lines, line ≠ "" ∧ (dataPiecesOf line).length < 2 := by
      rintro ⟨l, hl, hne, hlen⟩
      have := hgood l hl ((isEmpty_data_eq_false_iff l).2 hne)
      omega
    refine ⟨⟨?_, fun h => absurd h hnot⟩, fun h => absurd h hnot⟩
    rintro ⟨_, hcerr⟩
    rw [hout] at hcerr
    cases hF : (prerequisiteRefs lines).find?
        (fun pc => decide (pc.1 ∉ identifiersOf lines)) with
    | none => rw [hF] at hcerr; simp at hcerr
    | some pc => rw [hF] at hcerr; simp at hcerr

theorem load_malformed_iff_witness :
    LoadCoursesFromFile "courses.csv" (some ["CSCI101"]) [] =
        LoadOutcome.mk false [] (some LoadError.invalidLine) ∧
      LoadCoursesFromFile "courses.csv"
          (some ["CSCI201, Data Structures, CSCI999", "CSCI101"]) [] =
        LoadOutcome.mk false [] (some LoadError.invalidLine) :=
  ⟨(load_malformed_iff "courses.csv" ["CSCI101"] []).2
      ⟨"CSCI101", by decide, by decide, by decide⟩,
    (load_malformed_iff "courses.csv" ["CSCI201, Data Structures, CSCI999", "CSCI101"] []).2
      ⟨"CSCI101", by decide, by decide, by decide⟩⟩

/-- C5: on an input whose non-empty lines all have at least 2 fields, load
fails with the unknown-prerequisite message if and only if some field at index
2 or more of some line, uppercased, equals the uppercased field 0 of no line;
otherwise load succeeds.  The message names the first unresolved reference in
line order then field order, with field 0 of its line. -/
theorem load_unknown_prerequisite_iff (filename : String) (lines : List String)
    (courses : List Course)
    (hfields : ∀ line ∈ lines, line ≠ "" → 2 ≤ (dataPiecesOf line).length) :
    ((∃ p c, LoadCoursesFromFile filename (some lines) courses =
          LoadOutcome.mk false courses (some (LoadError.missingPrerequisite p c))) ↔
      ∃ line ∈ lines, ∃ field ∈ (dataPiecesOf line).drop 2,
        ∀ line' ∈ lines, ∀ f0, (dataPiecesOf line').head? = some f0 →
          toUpper field ≠ toUpper f0) ∧
    ((¬ ∃ line ∈ lines, ∃ field ∈ (dataPiecesOf line).drop 2,
        ∀ line' ∈ lines, ∀ f0, (dataPiecesOf line').head? = some f0 →
          toUpper field ≠ toUpper f0) →
      (LoadCoursesFromFile filename (some lines) courses).ret = true ∧
        (LoadCoursesFromFile filename (some lines) courses).cerr = none) ∧
    (∀ p c, (LoadCoursesFromFile filename (some lines) courses).cerr =
          some (LoadError.missingPrerequisite p c) →
      (prerequisiteRefs lines).find? (fun pc => decide (pc.1 ∉ identifiersOf lines)) =
        some (p, c)) := by
  rcases LoadCoursesFromFile_some filename lines courses with ⟨hbad, _⟩ | ⟨_, hout⟩
  · obtain ⟨l, hl, hne, hlen⟩ := hbad
    have := hfields l hl ((isEmpty_data_eq_false_iff l).1 hne)
    omega
  · rw [exists_unresolved_iff, hout]
    cases hF : (prerequisiteRefs lines).find?
        (fun pc => decide (pc.1 ∉ identifiersOf lines)) with
    | none =>
      have hno := (find_unresolved_eq_none_iff lines).1 hF
      refine ⟨⟨?_, fun h => absurd h hno⟩, fun _ => ⟨rfl, rfl⟩, ?_⟩
      · rintro ⟨p, c, h⟩
        simp at h
      · intro p c h
        simp at h
    | some pc =>
      have hmem := List.mem_of_find?_eq_some hF
      have hprop := List.find?_some hF
      have hex : ∃ pc ∈ prerequisiteRefs lines, pc.1 ∉ identifiersOf lines :=
        ⟨pc, hmem, by simpa using hprop⟩
      refine ⟨⟨fun _ => hex, fun _ => ⟨pc.1, pc.2, rfl⟩⟩, fun h => absurd hex h, ?_⟩
      intro p c h
      simp only [Option.some.injEq, LoadError.missingPrerequisite.injEq] at h
      obtain ⟨h1, h2⟩ := h
      rw [← h1, ← h2]

theorem load_unknown_prerequisite_iff_witness :
    LoadCoursesFromFile "courses.csv" (some ["CSCI201, Data Structures, CSCI999"]) [] =
        LoadOutcome.mk false [] (some (LoadError.missingPrerequisite "CSCI999" "CSCI201")) ∧
      (prerequisiteRefs ["CSCI201, Data Structures, CSCI999"]).find?
          (fun pc => decide (pc.1 ∉ identifiersOf ["CSCI201, Data Structures, CSCI999"])) =
        some ("CSCI999", "CSCI201") :=
  ⟨by decide,
    (load_unknown_prerequisite_iff "courses.csv" ["CSCI201, Data Structures, CSCI999"] []
      (by decide)).2.2 "CSCI999" "CSCI201" (by decide)⟩

/-- C6: when load succeeds, the returned sequence has exactly one record for
each non-empty input line, in input order, and the record of a line with the
trimmed fields `f0, f1, f2 .. fn` has identifier `toUpper f0`, title `f1`
unchanged and prerequisites `toUpper f2 .. toUpper fn` in the same order,
repetitions kept. -/
theorem load_records (filename : String) (lines : List String) (courses : List Course)
    (hok : (LoadCoursesFromFile filename (some lines) courses).ret = true) :
    (LoadCoursesFromFile filename (some lines) courses).courses.map some =
      (lines.filter (fun line => decide (line ≠ ""))).map
        (fun line => recordOfFields (dataPiecesOf line)) := by
  rcases LoadCoursesFromFile_some filename lines courses with ⟨_, hout⟩ | ⟨hgood, hout⟩
  · rw [hout] at hok; cases hok
  · rw [hout] at hok ⊢
    cases hF : (prerequisiteRefs lines).find?
        (fun pc => decide (pc.1 ∉ identifiersOf lines)) with
    | some pc => rw [hF] at hok; cases hok
    | none =>
      simp only [List.map_map, ← nonEmptyLines_eq_filter]
      apply List.map_congr_left
      intro l hl
      have hl' := List.mem_filter.1 hl
      have hne : l.data.isEmpty = false := by simpa using hl'.2
      exact (recordOfFields_eq_makeCourse _ (hgood l hl'.1 hne)).symm

theorem load_records_witness :
    (LoadCoursesFromFile "courses.csv"
        (some ["csci101, Intro to CS", "", "CSCI201, Data Structures, csci101, CSCI101",
          "CSCI101, Again"]) []).courses.map some =
      [some (Course.mk "CSCI101" "Intro to CS" []),
        some (Course.mk "CSCI201" "Data Structures" ["CSCI101", "CSCI101"]),
        some (Course.mk "CSCI101" "Again" [])] :=
  (load_records "courses.csv"
    ["csci101, Intro to CS", "", "CSCI201, Data Structures, csci101, CSCI101",
      "CSCI101, Again"] [] (by decide)).trans (by decide)

/-- C7: when load succeeds, every prerequisite of every returned record is the
identifier of some record of the same returned sequence. -/
theorem load_prerequisites_resolve (filename : String) (lines : List String)
    (courses : List Course)
    (hok : (LoadCoursesFromFile filename (some lines) courses).ret = true) :
    ∀ r ∈ (LoadCoursesFromFile filename (some lines) courses).courses,
      ∀ p ∈ r.prerequisites,
        ∃ r' ∈ (LoadCoursesFromFile filename (some lines) courses).courses,
          r'.courseNumber = p := by
  obtain ⟨_, hres, hout⟩ := load_success filename lines courses hok
  rw [hout]
  intro r hr p hp
  apply exists_course_of_mem_identifiersOf
  obtain ⟨l, hl, rfl⟩ := List.mem_map.1 hr
  have hl' := (List.mem_filter.1 hl).1
  have hp' : p ∈ ((dataPiecesOf l).drop 2).map toUpper := by
    unfold makeCourse at hp
    simp only at hp
    split_ifs at hp
    · exact hp
    · cases hp
  obtain ⟨f, hf, rfl⟩ := List.mem_map.1 hp'
  exact hres (toUpper f, (dataPiecesOf l).getD 0 "") (mem_prerequisiteRefs.2 ⟨l, hl', f, hf, rfl⟩)

theorem load_prerequisites_resolve_witness :
    ∃ r' ∈ (LoadCoursesFromFile "courses.csv"
        (some ["CSCI201, Data Structures, csci101", "CSCI101, Intro to CS"]) []).courses,
      r'.courseNumber = "CSCI101" :=
  load_prerequisites_resolve "courses.csv"
    ["CSCI201, Data Structures, csci101", "CSCI101, Intro to CS"] [] (by decide)
    (Course.mk "CSCI201" "Data Structures" ["CSCI101"]) (by decide) "CSCI101" (by decide)

/-- C8: load on a permutation of the input lines has the same outcome class
(success, malformed record, unknown prerequisite) as on the original, and on
success both outputs are the image of the non-empty lines, in their order,
under one and the same map from lines to records, so the records are permuted
as the lines are; a prerequisite defined on a later line resolves. -/
theorem load_perm_invariant (filename : String) (lines lines' : List String)
    (courses : List Course) (hperm : lines'.Perm lines) :
    (∃ cls, (LoadCoursesFromFile filename (some lines) courses).outcomeClass = some cls ∧
        (LoadCoursesFromFile filename (some lines') courses).outcomeClass = some cls) ∧
    ((LoadCoursesFromFile filename (some lines) courses).ret = true →
      (LoadCoursesFromFile filename (some lines) courses).courses =
          (lines.filter (fun line => decide (line ≠ ""))).map
            (fun line => makeCourse (dataPiecesOf line)) ∧
        (LoadCoursesFromFile filename (some lines') courses).courses =
          (lines'.filter (fun line => decide (line ≠ ""))).map
            (fun line => makeCourse (dataPiecesOf line)) ∧
        (LoadCoursesFromFile filename (some lines') courses).courses.Perm
          (LoadCoursesFromFile filename (some lines) courses).courses) := by
  rcases LoadCoursesFromFile_some filename lines courses with ⟨hbad, hout⟩ | ⟨hgood, hout⟩
  · have hbad' := (exists_bad_line_perm hperm).2 hbad
    rcases LoadCoursesFromFile_some filename lines' courses with ⟨_, hout'⟩ | ⟨hgood', _⟩
    · rw [hout, hout']
      exact ⟨⟨OutcomeClass.malformedRecord, rfl, rfl⟩, fun h => by cases h⟩
    · obtain ⟨l, hl, he, hlen⟩ := hbad'
      have := hgood' l hl he
      omega
  · rcases LoadCoursesFromFile_some filename lines' courses with ⟨hbad', _⟩ | ⟨_, hout'⟩
    · obtain ⟨l, hl, he, hlen⟩ := (exists_bad_line_perm hperm).1 hbad'
      have := hgood l hl he
      omega
    · rw [hout, hout']
      cases hF : (prerequisiteRefs lines).find?
          (fun pc => decide (pc.1 ∉ identifiersOf lines)) with
      | some pc =>
        have hex := (exists_unresolved_perm hperm).2 (find_unresolved_some hF)
        cases hF' : (prerequisiteRefs lines').find?
            (fun pc => decide (pc.1 ∉ identifiersOf lines')) with
        | some pc' => exact ⟨⟨OutcomeClass.unknownPrerequisite, rfl, rfl⟩, fun h => by cases h⟩
        | none => exact absurd hex ((find_unresolved_eq_none_iff lines').1 hF')
      | none =>
        have hno := (find_unresolved_eq_none_iff lines).1 hF
        cases hF' : (prerequisiteRefs lines').find?
            (fun pc => decide (pc.1 ∉ identifiersOf lines')) with
        | some pc' =>
          exact absurd ((exists_unresolved_perm hperm).1 (find_unresolved_some hF')) hno
        | none =>
          refine ⟨⟨OutcomeClass.success, rfl, rfl⟩, fun _ => ⟨?_, ?_, ?_⟩⟩
          · simp only [nonEmptyLines_eq_filter]
          · simp only [nonEmptyLines_eq_filter]
          · simp only [nonEmptyLines]
            exact (hperm.filter _).map _

theorem load_perm_invariant_witness :
    (LoadCoursesFromFile "courses.csv"
        (some ["CSCI201, Data Structures, CSCI101", "CSCI101, Intro to CS"]) []).courses =
      [Course.mk "CSCI201" "Data Structures" ["CSCI101"], Course.mk "CSCI101" "Intro to CS" []] :=
  ((load_perm_invariant "courses.csv"
    ["CSCI101, Intro to CS", "CSCI201, Data Structures, CSCI101"]
    ["CSCI201, Data Structures, CSCI101", "CSCI101, Intro to CS"] []
    (List.Perm.swap _ _ [])).2 (by decide)).2.1.trans (by decide)

/-- C9: when load fails, for whatever reason, the output vector of the caller
is what it was before the call, and the load step of the shell leaves its
state as it was: no insert is performed, so the traversal of the index and
every search result are unchanged. -/
theorem failed_load_not_applied (filename : String) (file : Option (List String))
    (courses : List Course) (st : AppState)
    (hfail : (LoadCoursesFromFile filename file courses).ret = false) :
    (LoadCoursesFromFile filename file courses).courses = courses ∧
      loadStep st filename file = st ∧
      (loadStep st filename file).bst.traverse = st.bst.traverse ∧
      ∀ q, (loadStep st filename file).bst.Search q = st.bst.Search q := by
  have hstep : loadStep st filename file = st := by
    unfold loadStep
    simp only
    rw [LoadCoursesFromFile_ret_congr filename file [] courses, hfail]
    rfl
  refine ⟨?_, hstep, by rw [hstep], fun q => by rw [hstep]⟩
  cases file with
  | none => rfl
  | some lines =>
    rcases LoadCoursesFromFile_some filename lines courses with ⟨_, hout⟩ | ⟨_, hout⟩
    · rw [hout]
    · rw [hout] at hfail ⊢
      cases hF : (prerequisiteRefs lines).find?
          (fun pc => decide (pc.1 ∉ identifiersOf lines)) with
      | some pc => rfl
      | none => rw [hF] at hfail; cases hfail

theorem failed_load_not_applied_witness :
    (LoadCoursesFromFile "courses.csv" (some ["CSCI101, Intro to CS", "CSCI201"])
        [Course.mk "MATH101" "Calculus I" []]).courses = [Course.mk "MATH101" "Calculus I" []] ∧
      loadStep (AppState.mk (BinarySearchTree.empty.Insert (Course.mk "MATH101" "Calculus I" []))
          true) "courses.csv" (some ["CSCI101, Intro to CS", "CSCI201"]) =
        AppState.mk (BinarySearchTree.empty.Insert (Course.mk "MATH101" "Calculus I" [])) true :=
  ⟨(failed_load_not_applied "courses.csv" (some ["CSCI101, Intro to CS", "CSCI201"])
      [Course.mk "MATH101" "Calculus I" []]
      (AppState.mk (BinarySearchTree.empty.Insert (Course.mk "MATH101" "Calculus I" [])) true)
      (by decide)).1,
    (failed_load_not_applied "courses.csv" (some ["CSCI101, Intro to CS", "CSCI201"])
      [Course.mk "MATH101" "Calculus I" []]
      (AppState.mk (BinarySearchTree.empty.Insert (Course.mk "MATH101" "Calculus I" [])) true)
      (by decide)).2.1⟩

/-- C10: identifier matching is case-insensitive: two queries with the same
uppercased form get the same search result on every index, and after a
successful load into an empty index a search for any case variant of the
identifier field of any input line finds a record with that identifier. -/
theorem search_case_insensitive :
    (∀ (bst : BinarySearchTree) (q1 q2 : String),
      toUpper q1 = toUpper q2 → bst.Search q1 = bst.Search q2) ∧
    (∀ (filename : String) (lines : List String) (courses : List Course)
        (line f0 q : String),
      (LoadCoursesFromFile filename (some lines) courses).ret = true →
      line ∈ lines → (dataPiecesOf line).head? = some f0 → toUpper q = toUpper f0 →
      ∃ r, (PopulateBST (LoadCoursesFromFile filename (some lines) courses).courses
            BinarySearchTree.empty).Search q = some r ∧
          r.courseNumber = toUpper f0) := by
  constructor
  · intro bst q1 q2 h
    unfold BinarySearchTree.Search
    simp only [h]
  · intro filename lines courses line f0 q hok hline hf0 hq
    obtain ⟨_, _, hout⟩ := load_success filename lines courses hok
    rw [hout, Search_PopulateBST_empty, hq]
    obtain ⟨r', hr', hkey⟩ := exists_course_of_mem_identifiersOf lines (toUpper f0)
      (mem_identifiersOf.2 ⟨line, hline, f0, hf0, rfl⟩)
    cases hfind : ((nonEmptyLines lines).map (fun line => makeCourse (dataPiecesOf line))).find?
        (fun c => decide (toUpper f0 = c.courseNumber)) with
    | none =>
      have := List.find?_eq_none.1 hfind r' hr'
      simp [hkey] at this
    | some r =>
      have hr : toUpper f0 = r.courseNumber := by simpa using List.find?_some hfind
      exact ⟨r, rfl, hr.symm⟩

theorem search_case_insensitive_witness :
    (PopulateBST (LoadCoursesFromFile "courses.csv" (some ["csci101, Intro"]) []).courses
        BinarySearchTree.empty).Search "CSCI101" = some (Course.mk "CSCI101" "Intro" []) ∧
      (PopulateBST (LoadCoursesFromFile "courses.csv" (some ["csci101, Intro"]) []).courses
        BinarySearchTree.empty).Search "csci101" = some (Course.mk "CSCI101" "Intro" []) ∧
      ∃ r, (PopulateBST (LoadCoursesFromFile "courses.csv" (some ["csci101, Intro"]) []).courses
            BinarySearchTree.empty).Search "cSci101" = some r ∧
          r.courseNumber = toUpper "csci101" :=
  ⟨by decide,
    (search_case_insensitive.1 _ "csci101" "CSCI101" (by decide)).trans (by decide),
    search_case_insensitive.2 "courses.csv" ["csci101, Intro"] [] "csci101, Intro" "csci101"
      "cSci101" (by decide) (by decide) (by decide) (by decide)⟩

/-- C11, as amended: empty lines are skipped silently.  Two inputs that differ
only by empty lines (lines with no character), removed or added anywhere, give
the same result of load: the same returned value, the same records and the same
message. -/
theorem load_skips_empty_lines (filename : String) (lines lines' : List String)
    (courses : List Course)
    (h : lines.filter (fun line => decide (line ≠ "")) =
      lines'.filter (fun line => decide (line ≠ ""))) :
    LoadCoursesFromFile filename (some lines) courses =
      LoadCoursesFromFile filename (some lines') courses := by
  rw [LoadCoursesFromFile_nonEmptyLines filename lines,
    LoadCoursesFromFile_nonEmptyLines filename lines', nonEmptyLines_eq_filter,
    nonEmptyLines_eq_filter, h]

theorem load_skips_empty_lines_witness :
    LoadCoursesFromFile "courses.csv" (some ["", "CSCI101, Intro to CS", "", ""]) [] =
      LoadCoursesFromFile "courses.csv" (some ["CSCI101, Intro to CS"]) [] :=
  load_skips_empty_lines "courses.csv" ["", "CSCI101, Intro to CS", "", ""]
    ["CSCI101, Intro to CS"] [] (by decide)

/-- C11, counterexample: a line of whitespace only is not skipped.  Adding the
line `"  "`, or the line `"\r"`, to an input that loads makes the load fail
with the message on the number of fields. -/
theorem load_whitespace_line_not_skipped :
    LoadCoursesFromFile "courses.csv" (some ["CSCI101, Intro to CS"]) [] =
        LoadOutcome.mk true [Course.mk "CSCI101" "Intro to CS" []] none ∧
      LoadCoursesFromFile "courses.csv" (some ["CSCI101, Intro to CS", "  "]) [] =
        LoadOutcome.mk false [] (some LoadError.invalidLine) ∧
      LoadCoursesFromFile "courses.csv" (some ["CSCI101, Intro to CS", "\r"]) [] =
        LoadOutcome.mk false [] (some LoadError.invalidLine) := by
  decide

/-- C12: after a successful load into an empty index, every prerequisite of
every record stored in the index can be looked up: the search for it returns a
record whose identifier is that prerequisite. -/
theorem prerequisites_searchable (filename : String) (lines : List String)
    (courses : List Course)
    (hok : (LoadCoursesFromFile filename (some lines) courses).ret = true) :
    ∀ r ∈ (PopulateBST (LoadCoursesFromFile filename (some lines) courses).courses
        BinarySearchTree.empty).traverse,
      ∀ p ∈ r.prerequisites,
        ∃ r', (PopulateBST (LoadCoursesFromFile filename (some lines) courses).courses
            BinarySearchTree.empty).Search p = some r' ∧ r'.courseNumber = p := by
  obtain ⟨_, hres, hout⟩ := load_success filename lines courses hok
  rw [hout]
  intro r hr p hp
  have hr' : r ∈ (nonEmptyLines lines).map (fun line => makeCourse (dataPiecesOf line)) := by
    have hperm := PopulateBST_traverse_perm
      ((nonEmptyLines lines).map (fun line => makeCourse (dataPiecesOf line)))
      BinarySearchTree.empty
    simpa [BinarySearchTree.traverse, BinarySearchTree.empty, inOrderPrintHelper]
      using hperm.mem_iff.1 hr
  obtain ⟨hid, hup⟩ := prerequisite_of_loaded lines r hres hr' p hp
  rw [Search_PopulateBST_empty, hup]
  exact find_course_of_exists _ p (exists_course_of_mem_identifiersOf lines p hid)

theorem prerequisites_searchable_witness :
    LoadCoursesFromFile "courses.csv"
        (some ["CSCI101, Intro to CS", "CSCI201, Data Structures, CSCI101",
          "MATH101, Calculus I"]) [] =
      LoadOutcome.mk true
        [Course.mk "CSCI101" "Intro to CS" [], Course.mk "CSCI201" "Data Structures" ["CSCI101"],
          Course.mk "MATH101" "Calculus I" []] none ∧
    ((PopulateBST (LoadCoursesFromFile "courses.csv"
        (some ["CSCI101, Intro to CS", "CSCI201, Data Structures, CSCI101",
          "MATH101, Calculus I"]) []).courses BinarySearchTree.empty).traverse.map
        Course.courseNumber = ["CSCI101", "CSCI201", "MATH101"]) ∧
    ((PopulateBST (LoadCoursesFromFile "courses.csv"
        (some ["CSCI101, Intro to CS", "CSCI201, Data Structures, CSCI101",
          "MATH101, Calculus I"]) []).courses BinarySearchTree.empty).Search "csci201" =
      some (Course.mk "CSCI201" "Data Structures" ["CSCI101"])) ∧
    ∃ r', (PopulateBST (LoadCoursesFromFile "courses.csv"
        (some ["CSCI101, Intro to CS", "CSCI201, Data Structures, CSCI101",
          "MATH101, Calculus I"]) []).courses BinarySearchTree.empty).Search "CSCI101" =
        some r' ∧ r'.courseNumber = "CSCI101" :=
  ⟨by decide, by decide, by decide,
    prerequisites_searchable "courses.csv"
      ["CSCI101, Intro to CS", "CSCI201, Data Structures, CSCI101", "MATH101, Calculus I"] []
      (by decide) (Course.mk "CSCI201" "Data Structures" ["CSCI101"]) (by decide)
      "CSCI101" (by decide)⟩

/-- C18: `Insert` stores the key as it is given and `Search` looks for the
uppercased query.  After a record whose identifier contains a lowercase ASCII
letter is inserted into any index, the record is in the index, and no query
makes `Search` return it. -/
theorem lowercase_key_unreachable (bst : BinarySearchTree) (r : Course)
    (hlow : ∃ c ∈ r.courseNumber.data, 97 ≤ c.toNat ∧ c.toNat ≤ 122) :
    r ∈ (bst.Insert r).traverse ∧ ∀ q : String, (bst.Insert r).Search q ≠ some r := by
  constructor
  · unfold BinarySearchTree.traverse
    rw [Insert_root, mem_inOrder_insertBelow]
    exact Or.inl rfl
  · intro q hq
    have hkey := SearchHelper_key _ _ _ hq
    obtain ⟨c, hc, hrange⟩ := hlow
    rw [hkey] at hc
    exact toUpper_no_lower q c hc hrange

theorem lowercase_key_unreachable_witness :
    (BinarySearchTree.empty.Insert (Course.mk "csci101" "Intro to CS" [])).Search "csci101" ≠
      some (Course.mk "csci101" "Intro to CS" []) :=
  (lowercase_key_unreachable BinarySearchTree.empty (Course.mk "csci101" "Intro to CS" [])
    (by decide)).2 "csci101"

/-- C19: a trailing comma yields no trailing empty field.  A non-empty line is
parsed into as many fields as it has commas when it ends with a comma, and into
one more otherwise; so it has fewer than 2 fields, and alone makes the load
fail with the message on the number of fields, exactly when it has no comma or
its only comma is its last character. -/
theorem trailing_comma_fields (line : String) (hne : line ≠ "") :
    ((dataPiecesOf line).length =
      if line.data.getLast? = some ',' then line.data.count ','
      else line.data.count ',' + 1) ∧
    ((dataPiecesOf line).length < 2 ↔
      (',' ∉ line.data ∨ (line.data.count ',' = 1 ∧ line.data.getLast? = some ','))) ∧
    (∀ (filename : String) (courses : List Course),
      LoadCoursesFromFile filename (some [line]) courses =
          LoadOutcome.mk false courses (some LoadError.invalidLine) ↔
        (',' ∉ line.data ∨ (line.data.count ',' = 1 ∧ line.data.getLast? = some ','))) := by
  have hlen := dataPiecesOf_length line hne
  have hiff : (dataPiecesOf line).length < 2 ↔
      (',' ∉ line.data ∨ (line.data.count ',' = 1 ∧ line.data.getLast? = some ',')) := by
    rw [hlen]
    by_cases hlast : line.data.getLast? = some ','
    · have hmem : ',' ∈ line.data := List.mem_of_getLast?_eq_some hlast
      have hpos : 0 < line.data.count ',' := List.count_pos_iff.2 hmem
      simp only [hlast, if_true, and_true]
      constructor
      · intro h; right; omega
      · rintro (h | h)
        · exact absurd hmem h
        · omega
    · simp only [hlast, if_false, and_false, or_false]
      rw [← List.count_eq_zero]
      omega
  refine ⟨hlen, hiff, ?_⟩
  intro filename courses
  rw [← hiff]
  have he : line.data.isEmpty = false := (isEmpty_data_eq_false_iff line).2 hne
  rcases LoadCoursesFromFile_some filename [line] courses with ⟨hbad, hout⟩ | ⟨hgood, hout⟩
  · obtain ⟨l, hl, _, hlt⟩ := hbad
    rw [List.mem_singleton] at hl
    subst hl
    exact ⟨fun _ => hlt, fun _ => hout⟩
  · have h2 := hgood line (List.mem_singleton.2 rfl) he
    constructor
    · intro h
      rw [hout] at h
      cases hF : (prerequisiteRefs [line]).find?
          (fun pc => decide (pc.1 ∉ identifiersOf [line])) with
      | none => rw [hF] at h; simp at h
      | some pc => rw [hF] at h; simp at h
    · intro h; omega

theorem trailing_comma_fields_witness :
    (dataPiecesOf "CSCI101,").length = 1 ∧
      LoadCoursesFromFile "courses.csv" (some ["CSCI101,"]) [] =
        LoadOutcome.mk false [] (some LoadError.invalidLine) ∧
      dataPiecesOf "CSCI101, " = ["CSCI101", ""] ∧
      LoadCoursesFromFile "courses.csv" (some ["CSCI101, "]) [] =
        LoadOutcome.mk true [Course.mk "CSCI101" "" []] none :=
  ⟨(trailing_comma_fields "CSCI101," (by decide)).1.trans (by decide),
    ((trailing_comma_fields "CSCI101," (by decide)).2.2 "courses.csv" []).2 (by decide),
    by decide, by decide⟩

/-- C20: loading accumulates.  Running the load step of `main` twice on an
input that loads, from the initial state, leaves an index whose traversal holds
every loaded record twice (a permutation of the loaded sequence followed by
itself, so twice as many entries), and every search gives the same result as
after the first load. -/
theorem load_twice_accumulates (filename : String) (lines : List String)
    (hok : (LoadCoursesFromFile filename (some lines) []).ret = true) :
    (loadStep (loadStep AppState.initial filename (some lines)) filename
        (some lines)).bst.traverse.Perm
      ((LoadCoursesFromFile filename (some lines) []).courses ++
        (LoadCoursesFromFile filename (some lines) []).courses) ∧
    (loadStep (loadStep AppState.initial filename (some lines)) filename
        (some lines)).bst.traverse.length =
      2 * (LoadCoursesFromFile filename (some lines) []).courses.length ∧
    (∀ r : Course,
      (loadStep (loadStep AppState.initial filename (some lines)) filename
          (some lines)).bst.traverse.count r =
        2 * (LoadCoursesFromFile filename (some lines) []).courses.count r) ∧
    (∀ q : String,
      (loadStep (loadStep AppState.initial filename (some lines)) filename
          (some lines)).bst.Search q =
        (loadStep AppState.initial filename (some lines)).bst.Search q) := by
  have hstep : ∀ st : AppState, loadStep st filename (some lines) =
      AppState.mk (PopulateBST (LoadCoursesFromFile filename (some lines) []).courses st.bst)
        true := by
    intro st
    unfold loadStep
    simp only [hok, if_true]
  rw [hstep, hstep]
  simp only [AppState.initial]
  generalize (LoadCoursesFromFile filename (some lines) []).courses = cs
  have hperm1 : (PopulateBST cs BinarySearchTree.empty).traverse.Perm cs := by
    simpa [BinarySearchTree.traverse, BinarySearchTree.empty, inOrderPrintHelper]
      using PopulateBST_traverse_perm cs BinarySearchTree.empty
  have hperm : (PopulateBST cs (PopulateBST cs BinarySearchTree.empty)).traverse.Perm
      (cs ++ cs) :=
    (PopulateBST_traverse_perm cs _).trans (List.Perm.append_right cs hperm1)
  refine ⟨hperm, ?_, ?_, ?_⟩
  · rw [hperm.length_eq, List.length_append]; omega
  · intro r
    rw [hperm.count_eq, List.count_append]; omega
  · intro q
    unfold BinarySearchTree.Search
    simp only
    rw [SearchHelper_PopulateBST]
    cases hs : SearchHelper (PopulateBST cs BinarySearchTree.empty).root (toUpper q) with
    | some x => rfl
    | none =>
      simp only
      have := Search_PopulateBST_empty cs q
      unfold BinarySearchTree.Search at this
      simp only at this
      rw [← this, hs]

theorem load_twice_accumulates_witness :
    (loadStep (loadStep AppState.initial "courses.csv"
        (some ["CSCI201, Data Structures, CSCI101", "CSCI101, Intro to CS"])) "courses.csv"
        (some ["CSCI201, Data Structures, CSCI101", "CSCI101, Intro to CS"])).bst.traverse.length =
      2 * (LoadCoursesFromFile "courses.csv"
        (some ["CSCI201, Data Structures, CSCI101", "CSCI101, Intro to CS"]) []).courses.length :=
  (load_twice_accumulates "courses.csv"
    ["CSCI201, Data Structures, CSCI101", "CSCI101, Intro to CS"] (by decide)).2.1

/-- C14, the code at the failing input: two lines with the same identifier are
loaded without complaint, and after the two inserts the right child of the root
holds a key equal to the key of the root, so the property `left < parent <
right` that the comment of `Insert` promises does not hold; only the weaker
ordering with `<=` on the right does. -/
theorem strict_order_fails_on_duplicate :
    LoadCoursesFromFile "courses.csv"
        (some ["CSCI101, Intro to CS", "CSCI101, Intro again"]) [] =
      LoadOutcome.mk true
        [Course.mk "CSCI101" "Intro to CS" [], Course.mk "CSCI101" "Intro again" []] none ∧
    (PopulateBST [Course.mk "CSCI101" "Intro to CS" [], Course.mk "CSCI101" "Intro again" []]
        BinarySearchTree.empty).root =
      Node.node (Course.mk "CSCI101" "Intro to CS" []) Node.nullptr
        (Node.node (Course.mk "CSCI101" "Intro again" []) Node.nullptr Node.nullptr) ∧
    strictlyOrdered
      (PopulateBST [Course.mk "CSCI101" "Intro to CS" [], Course.mk "CSCI101" "Intro again" []]
        BinarySearchTree.empty).root = false ∧
    descentOrdered
      (PopulateBST [Course.mk "CSCI101" "Intro to CS" [], Course.mk "CSCI101" "Intro again" []]
        BinarySearchTree.empty).root = true := by
  decide

/-- C15: on an index in which at every node the keys of the left subtree are
strictly less than the key of the node and the keys of the right subtree are
greater than or equal to it, `Insert` gives an index with the same ordering;
every node of the old index is still at its position with its record, and there
is exactly one more node, a leaf holding the inserted record, at a position
that was free. -/
theorem insert_preserves_descent_order (bst : BinarySearchTree) (r : Course)
    (hord : descentOrdered bst.root = true) :
    descentOrdered (bst.Insert r).root = true ∧
    (∀ (path : List Bool) (c : Course),
      courseAt bst.root path = some c → courseAt (bst.Insert r).root path = some c) ∧
    courseAt bst.root (insertPath bst.root r) = none ∧
    subtreeAt (bst.Insert r).root (insertPath bst.root r) =
      Node.node r Node.nullptr Node.nullptr ∧
    (∀ path : List Bool, path ≠ insertPath bst.root r →
      courseAt (bst.Insert r).root path = courseAt bst.root path) := by
  rw [Insert_root]
  refine ⟨descentOrdered_insertBelow _ _ hord, ?_, courseAt_insertPath _ _,
    subtreeAt_insertBelow_insertPath _ _, ?_⟩
  · intro path c hc
    rw [courseAt_insertBelow]
    split_ifs with hp
    · rw [hp, courseAt_insertPath] at hc
      cases hc
    · exact hc
  · intro path hp
    rw [courseAt_insertBelow, if_neg hp]

theorem insert_preserves_descent_order_witness :
    descentOrdered
        ((PopulateBST [Course.mk "CSCI201" "Data Structures" [], Course.mk "CSCI101" "Intro" []]
          BinarySearchTree.empty).Insert (Course.mk "CSCI201" "Data Structures II" [])).root = true ∧
      subtreeAt
        ((PopulateBST [Course.mk "CSCI201" "Data Structures" [], Course.mk "CSCI101" "Intro" []]
          BinarySearchTree.empty).Insert (Course.mk "CSCI201" "Data Structures II" [])).root
        [true] = Node.node (Course.mk "CSCI201" "Data Structures II" []) Node.nullptr
          Node.nullptr :=
  ⟨(insert_preserves_descent_order
      (PopulateBST [Course.mk "CSCI201" "Data Structures" [], Course.mk "CSCI101" "Intro" []]
        BinarySearchTree.empty) (Course.mk "CSCI201" "Data Structures II" []) (by decide)).1,
    (insert_preserves_descent_order
      (PopulateBST [Course.mk "CSCI201" "Data Structures" [], Course.mk "CSCI101" "Intro" []]
        BinarySearchTree.empty) (Course.mk "CSCI201" "Data Structures II" [])
      (by decide)).2.2.2.1⟩

/-- C16: no rebalancing.  Records inserted into the empty index in
non-decreasing order of identifier give a tree in which no node has a left
child and whose depth is the number of records. -/
theorem sorted_insertion_degenerates (records : List Course)
    (hsorted : List.Chain' (fun a b : Course => strLe a.courseNumber b.courseNumber = true)
      records) :
    noLeftChild (PopulateBST records BinarySearchTree.empty).root = true ∧
      depth (PopulateBST records BinarySearchTree.empty).root = records.length := by
  haveI : IsTrans Course (fun a b : Course => strLe a.courseNumber b.courseNumber = true) :=
    ⟨fun _ _ _ h1 h2 => strLe_trans h1 h2⟩
  rw [PopulateBST_rightSpine records (List.chain'_iff_pairwise.1 hsorted)]
  exact ⟨noLeftChild_rightSpine records, depth_rightSpine records⟩

theorem sorted_insertion_degenerates_witness :
    noLeftChild (PopulateBST [Course.mk "CSCI101" "Intro to CS" [],
        Course.mk "CSCI201" "Data Structures" ["CSCI101"],
        Course.mk "CSCI201" "Data Structures again" [], Course.mk "MATH101" "Calculus I" []]
        BinarySearchTree.empty).root = true ∧
      depth (PopulateBST [Course.mk "CSCI101" "Intro to CS" [],
        Course.mk "CSCI201" "Data Structures" ["CSCI101"],
        Course.mk "CSCI201" "Data Structures again" [], Course.mk "MATH101" "Calculus I" []]
        BinarySearchTree.empty).root = 4 :=
  sorted_insertion_degenerates [Course.mk "CSCI101" "Intro to CS" [],
    Course.mk "CSCI201" "Data Structures" ["CSCI101"],
    Course.mk "CSCI201" "Data Structures again" [], Course.mk "MATH101" "Calculus I" []]
    (by simp only [List.chain'_cons, List.chain'_singleton, and_true]; decide)

/-- C13: duplicate identifiers are shadowed, not overwritten.  For records with
uppercase identifiers inserted into the empty index: a search returns the
course at the position `SearchHelper` stops at; the search for an identifier of
the sequence returns the first record of the sequence with that identifier; a
record inserted after another one with the same identifier occupies a node of
its own, at a position that no search stops at; and the traversal is a
permutation of the whole sequence, later duplicates included. -/
theorem duplicate_identifiers_shadowed (records : List Course)
    (hupper : ∀ r ∈ records, toUpper r.courseNumber = r.courseNumber) :
    (∀ q : String, (PopulateBST records BinarySearchTree.empty).Search q =
      (SearchHelperPath (PopulateBST records BinarySearchTree.empty).root (toUpper q)).bind
        (courseAt (PopulateBST records BinarySearchTree.empty).root)) ∧
    (∀ k ∈ records.map Course.courseNumber,
      ∃ r, (PopulateBST records BinarySearchTree.empty).Search k = some r ∧
        records.find? (fun c => decide (k = c.courseNumber)) = some r) ∧
    (∀ (pre : List Course) (r : Course) (post : List Course),
      records = pre ++ r :: post →
      (∃ r0 ∈ pre, r0.courseNumber = r.courseNumber) →
      courseAt (PopulateBST records BinarySearchTree.empty).root
          (insertPath (PopulateBST pre BinarySearchTree.empty).root r) = some r ∧
        ∀ q : String,
          SearchHelperPath (PopulateBST records BinarySearchTree.empty).root (toUpper q) ≠
            some (insertPath (PopulateBST pre BinarySearchTree.empty).root r)) ∧
    (PopulateBST records BinarySearchTree.empty).traverse.Perm records := by
  refine ⟨fun q => SearchHelper_eq_bind _ _, ?_, ?_, ?_⟩
  · intro k hk
    obtain ⟨r0, hr0, rfl⟩ := List.mem_map.1 hk
    rw [Search_PopulateBST_empty, hupper r0 hr0]
    obtain ⟨r, hr, _⟩ := find_course_of_exists records r0.courseNumber ⟨r0, hr0, rfl⟩
    exact ⟨r, hr, hr⟩
  · intro pre r post hrec hdup
    subst hrec
    obtain ⟨h1, h2⟩ := shadowed_position pre post r hdup
    exact ⟨h1, fun q => h2 (toUpper q)⟩
  · simpa [BinarySearchTree.traverse, BinarySearchTree.empty, inOrderPrintHelper]
      using PopulateBST_traverse_perm records BinarySearchTree.empty

theorem duplicate_identifiers_shadowed_witness :
    (∃ r, (PopulateBST [Course.mk "CSCI101" "Intro to CS" [],
          Course.mk "CSCI101" "Intro again" []] BinarySearchTree.empty).Search "CSCI101" =
          some r ∧
        [Course.mk "CSCI101" "Intro to CS" [], Course.mk "CSCI101" "Intro again" []].find?
          (fun c => decide ("CSCI101" = c.courseNumber)) = some r) ∧
      (PopulateBST [Course.mk "CSCI101" "Intro to CS" [],
          Course.mk "CSCI101" "Intro again" []] BinarySearchTree.empty).Search "CSCI101" =
        some (Course.mk "CSCI101" "Intro to CS" []) ∧
      courseAt (PopulateBST [Course.mk "CSCI101" "Intro to CS" [],
          Course.mk "CSCI101" "Intro again" []] BinarySearchTree.empty).root
          (insertPath (PopulateBST [Course.mk "CSCI101" "Intro to CS" []]
            BinarySearchTree.empty).root (Course.mk "CSCI101" "Intro again" [])) =
        some (Course.mk "CSCI101" "Intro again" []) :=
  ⟨(duplicate_identifiers_shadowed
      [Course.mk "CSCI101" "Intro to CS" [], Course.mk "CSCI101" "Intro again" []]
      (by decide)).2.1 "CSCI101" (by decide),
    by decide,
    ((duplicate_identifiers_shadowed
      [Course.mk "CSCI101" "Intro to CS" [], Course.mk "CSCI101" "Intro again" []]
      (by decide)).2.2.1 [Course.mk "CSCI101" "Intro to CS" []]
      (Course.mk "CSCI101" "Intro again" []) [] rfl
      ⟨Course.mk "CSCI101" "Intro to CS" [], by decide, rfl⟩).1⟩

/-- C17: the in-order traversal is the stable sort of the insertion sequence.
For every list of records inserted in order into the empty index, the traversal
equals the stable sort of the list by identifier; in particular the records
with any given identifier appear in the traversal in the order of insertion. -/
theorem traverse_eq_stable_sort (records : List Course) :
    (PopulateBST records BinarySearchTree.empty).traverse = stableSortByIdentifier records ∧
    ∀ k : String, withIdentifier k (PopulateBST records BinarySearchTree.empty).traverse =
      withIdentifier k records := by
  have hstable : ∀ k : String,
      withIdentifier k (PopulateBST records BinarySearchTree.empty).traverse =
        withIdentifier k records := by
    intro k
    rw [withIdentifier_PopulateBST records BinarySearchTree.empty k rfl]
    rfl
  refine ⟨?_, hstable⟩
  apply eq_of_sorted_of_withIdentifier
  · exact inOrder_pairwise_of_descentOrdered _
      (PopulateBST_descentOrdered records BinarySearchTree.empty rfl)
  · exact pairwise_stableSort records
  · intro k
    rw [hstable k, withIdentifier_stableSort]

end CoursePlanner
